import Mathlib

/-!
# Verification of the SVGnest CLI nesting core

Shallow embedding of `svgnest_cli` (Rust) in Lean 4.  IEEE-754 doubles are
idealized as exact rationals (`ℚ`); the thread RNG is passed in as explicit
oracle data; the external `geo` / `geo_clipper` ("Clipper") library calls are
parameters of the embedding (a `ClipBackend`).  Everything else is translated
directly from the source files `geometry.rs`, `nfp.rs`, `part.rs`, `ga.rs`.
-/

namespace SvgNest

/-- `svg_parser.rs`: `struct Point { x: f64, y: f64 }`. -/
structure Point where
  x : ℚ
  y : ℚ
deriving DecidableEq, Repr

/-- `svg_parser.rs`: `struct Polygon { id: usize, points: Vec<Point>, closed: bool }`. -/
structure Polygon where
  id : Nat
  points : List Point
  closed : Bool
deriving DecidableEq, Repr

/-- `geometry.rs`: `struct Bounds { x, y, width, height: f64 }`. -/
structure Bounds where
  x : ℚ
  y : ℚ
  width : ℚ
  height : ℚ
deriving DecidableEq, Repr

/-! ## Geometry kernel (`geometry.rs`) -/

/-- Minimum of the `x` coordinates of a nonempty point list (head as initial
accumulator, folding `min` exactly as a scan over the list does). -/
def minXOf (p0 : Point) (ps : List Point) : ℚ :=
  ps.foldl (fun m p => min m p.x) p0.x

def minYOf (p0 : Point) (ps : List Point) : ℚ :=
  ps.foldl (fun m p => min m p.y) p0.y

def maxXOf (p0 : Point) (ps : List Point) : ℚ :=
  ps.foldl (fun m p => max m p.x) p0.x

def maxYOf (p0 : Point) (ps : List Point) : ℚ :=
  ps.foldl (fun m p => max m p.y) p0.y

/-- `geometry.rs::get_polygon_bounds`: AABB of the point list, `None` when
fewer than 3 points (the `geo` crate's `bounding_rect` on a nonempty
linestring is the min/max over the coordinates). -/
def get_polygon_bounds (points : List Point) : Option Bounds :=
  match points with
  | [] => none
  | p0 :: rest =>
    if points.length < 3 then none
    else
      let minx := minXOf p0 rest
      let miny := minYOf p0 rest
      some { x := minx, y := miny
             width := maxXOf p0 rest - minx
             height := maxYOf p0 rest - miny }

/-- `geometry.rs::polygon_area`: `½ Σ (x_j + x_i)(y_j − y_i)` with `j = i−1`
cyclically (`j` starts at `len−1`).  Negative for counter-clockwise input;
`0` when fewer than 3 points. -/
def polygon_area (points : List Point) : ℚ :=
  if points.length < 3 then 0
  else
    let n := points.length
    let idx := fun i => points.getD i ⟨0, 0⟩
    let terms := (List.range n).map (fun i =>
      let j := if i = 0 then n - 1 else i - 1
      ((idx j).x + (idx i).x) * ((idx j).y - (idx i).y))
    (1 / 2 : ℚ) * terms.sum

/-- The standard shoelace signed area (counter-clockwise positive): this is
what the `geo` crate's `signed_area` computes, and it is the *negation* of
`polygon_area` above. -/
def geoSignedAreaRing (points : List Point) : ℚ := - polygon_area points

/-- Rotation about the origin by `angle` degrees, with the cosine/sine pair
supplied by a trigonometry oracle `trig` (the `geo` crate's
`rotate_around_point`; positive angles are counter-clockwise).  Empty input
gives empty output, as in `geometry.rs::rotate_polygon`. -/
def rotate_polygon (trig : ℚ → ℚ × ℚ) (points : List Point) (angle : ℚ) : List Point :=
  match points with
  | [] => []
  | _ =>
    let c := (trig angle).1
    let s := (trig angle).2
    points.map (fun p => ⟨c * p.x - s * p.y, s * p.x + c * p.y⟩)

/-- `geometry.rs::normalize_polygons` helper: the running minimum of all `x`
coordinates over all polygons, starting from `f64::INFINITY` (modelled as
`⊤ : WithTop ℚ`). -/
def collectiveMinX (polys : List Polygon) : WithTop ℚ :=
  polys.foldl (fun m poly =>
    poly.points.foldl (fun m p => min m ((p.x : ℚ) : WithTop ℚ)) m) ⊤

def collectiveMinY (polys : List Polygon) : WithTop ℚ :=
  polys.foldl (fun m poly =>
    poly.points.foldl (fun m p => min m ((p.y : ℚ) : WithTop ℚ)) m) ⊤

/-- `geometry.rs::normalize_polygons`: translate all polygons so the
collective minimum x and y become 0.  Early return on the empty list and when
the minima are already `(0,0)`.  `WithTop.untop' 0` extracts the finite
minimum; the `⊤` case only arises when no polygon has any point, in which
case the translation loop touches nothing, exactly as in the source. -/
def normalize_polygons (polys : List Polygon) : List Polygon :=
  if polys = [] then polys
  else
    let mx := collectiveMinX polys
    let my := collectiveMinY polys
    if mx = (0 : ℚ) ∧ my = (0 : ℚ) then polys
    else
      let mx0 := mx.untop' 0
      let my0 := my.untop' 0
      polys.map (fun poly =>
        { poly with points := poly.points.map (fun p => ⟨p.x - mx0, p.y - my0⟩) })

/-- `geometry.rs::get_polygons_bounds`: combined AABB over those polygons
that themselves have bounds; `None` when no polygon does. -/
def get_polygons_bounds (polys : List Polygon) : Option Bounds :=
  let bs := polys.filterMap (fun p => get_polygon_bounds p.points)
  match bs with
  | [] => none
  | b0 :: rest =>
    let minx := rest.foldl (fun m b => min m b.x) b0.x
    let miny := rest.foldl (fun m b => min m b.y) b0.y
    let maxx := rest.foldl (fun m b => max m (b.x + b.width)) (b0.x + b0.width)
    let maxy := rest.foldl (fun m b => max m (b.y + b.height)) (b0.y + b0.height)
    some { x := minx, y := miny, width := maxx - minx, height := maxy - miny }

/-- Index pairs `(i, j)` read by `geometry.rs::point_in_polygon`'s loop:
`i` runs over `0..n` and `j` is the previous index, starting at `n − 1`. -/
def pipAccessPairs (n : Nat) : List (Nat × Nat) :=
  (List.range n).map (fun i => (i, if i = 0 then n - 1 else i - 1))

/-- `geometry.rs::point_in_polygon`: even-odd rule with the source's `1e-9`
denominator guard, iterating exactly over `pipAccessPairs`.  (In `ℚ` a zero
denominator yields `0` by convention; the source's `f64` would produce an
infinity there, which occurs only when `yj − yi` is exactly `−1e-9`.) -/
def point_in_polygon (poly : List Point) (x y : ℚ) : Bool :=
  (pipAccessPairs poly.length).foldl
    (fun inside ij =>
      let pi := poly.getD ij.1 ⟨0, 0⟩
      let pj := poly.getD ij.2 ⟨0, 0⟩
      let intersect :=
        (decide (pi.y > y) != decide (pj.y > y)) &&
        decide (x < (pj.x - pi.x) * (y - pi.y) / (pj.y - pi.y + 1 / 1000000000) + pi.x)
      if intersect then !inside else inside)
    false

/-- `geometry.rs::polygon_contains_polygon`: every vertex of `b + (bx,by)`
lies in `a + (ax,ay)` under the even-odd test. -/
def polygon_contains_polygon (a b : List Point) (ax ay bx by' : ℚ) : Bool :=
  b.all (fun p => point_in_polygon a (p.x + bx - ax) (p.y + by' - ay))

/-- A polygon of the `geo` crate: exterior ring plus interior rings. -/
structure GeoPoly where
  exterior : List Point
  interiors : List (List Point)
deriving DecidableEq, Repr

/-- `geo`'s `signed_area` for a polygon with holes: sum of the shoelace
signed areas of all rings. -/
def geoSignedArea (p : GeoPoly) : ℚ :=
  geoSignedAreaRing p.exterior + (p.interiors.map geoSignedAreaRing).sum

/-- The external Clipper / `geo_clipper` backend, taken as a parameter of the
embedding: polygon-set union (`Clipper::union(&mp, &g, SCALE)`) and the
emptiness test of `Clipper::intersection` on two already-translated
polygons. -/
structure ClipBackend where
  union : List GeoPoly → GeoPoly → List GeoPoly
  intersects : List Point → List Point → Bool

/-- `geometry.rs::polygons_intersect`: translate both polygons, then ask the
Clipper backend whether their intersection is non-empty. -/
def polygons_intersect (bk : ClipBackend) (a b : List Point)
    (ax ay bx by' : ℚ) : Bool :=
  bk.intersects (a.map (fun p => ⟨p.x + ax, p.y + ay⟩))
                (b.map (fun p => ⟨p.x + bx, p.y + by'⟩))

/-- Rust's `Iterator::min_by` (with `partial_cmp` falling back to `Equal`):
returns the first of equally-minimal elements, `none` on the empty list. -/
def rustMinBy {α : Type} (f : α → ℚ) : List α → Option α
  | [] => none
  | x :: xs => some (xs.foldl (fun acc y => if f acc > f y then y else acc) x)

/-- Entry `(i, j)` of the `lb × la` difference matrix `S[i][j] = a_j − b_i`
(a list of rows, one row per vertex of `b`). -/
def sumGet (s : List (List Point)) (i j : Nat) : Point :=
  (s.getD i []).getD j ⟨0, 0⟩

/-- The edge-quad list of `geometry.rs::minkowski_difference_clip`: the
`(-B) + A` difference matrix `S`, and for each `(i, j)` the quad
`[S[i][j], S[i+1][j], S[i+1][j+1], S[i][j+1]]` (indices modulo `lb`, `la`),
reversed when its `polygon_area` is negative. -/
def minkQuads (a b : List Point) : List (List Point) :=
  let la := a.length
  let lb := b.length
  let s : List (List Point) :=
    b.map (fun pb => a.map (fun pa => ⟨pa.x - pb.x, pa.y - pb.y⟩))
  (List.range lb).flatMap (fun i =>
    (List.range la).map (fun j =>
      let poly := [sumGet s (i % lb) (j % la),
                   sumGet s ((i + 1) % lb) (j % la),
                   sumGet s ((i + 1) % lb) ((j + 1) % la),
                   sumGet s (i % lb) ((j + 1) % la)]
      if polygon_area poly < 0 then poly.reverse else poly))

/-- The sequential union of the quads through the Clipper backend: the first
quad seeds the multi-polygon, each further quad is unioned in. -/
def quadUnionFold (bk : ClipBackend) (quads : List (List Point)) :
    Option (List GeoPoly) :=
  quads.foldl (fun acc quad =>
    match acc with
    | some mp => some (bk.union mp ⟨quad, []⟩)
    | none => some [⟨quad, []⟩]) none

/-- `geometry.rs::minkowski_difference_clip`: Minkowski sum of `A` with the
negated `B` via the edge-quad construction; quads with negative
`polygon_area` are reversed; all quads are unioned through the Clipper
backend; of the resulting polygons the one minimizing the `geo` crate's
`signed_area` is selected and its exterior is translated by `+b₀`. -/
def minkowski_difference_clip (bk : ClipBackend) (a b : List Point) : List Point :=
  if a = [] ∨ b = [] then []
  else
    let acc := quadUnionFold bk (minkQuads a b)
    match acc with
    | none => []
    | some mp =>
      match rustMinBy geoSignedArea mp with
      | some poly =>
        let b0 := b.headD ⟨0, 0⟩
        poly.exterior.map (fun p => ⟨p.x + b0.x, p.y + b0.y⟩)
      | none => []

/-! ## NFP cache and rectangle inner fit (`nfp.rs`) -/

/-- `f64::round`: round half away from zero. -/
def rustRound (q : ℚ) : ℤ :=
  if q ≥ 0 then ⌊q + 1 / 2⌋ else -⌊-q + 1 / 2⌋

abbrev NfpKey := Nat × Nat × Int × Int

/-- `nfp.rs::NfpCache`: mapping from `(aId, bId, quantized αA, quantized αB)`
to a stored NFP polygon, modelled as an association list (one entry per key),
plus the angle precision fixed at construction. -/
structure NfpCache where
  cache : List (NfpKey × List Point)
  angle_precision : ℚ

def NfpCache.DEFAULT_ANGLE_PRECISION : ℚ := 1 / 1000

def NfpCache.new (angle_precision : ℚ) : NfpCache :=
  { cache := [], angle_precision := angle_precision }

/-- The quantized key used by `get_or_generate`:
`(aId, bId, round(αA/ε), round(αB/ε))` with `factor = 1/ε`. -/
def NfpCache.keyOf (c : NfpCache) (a_id b_id : Nat) (a_angle b_angle : ℚ) : NfpKey :=
  let factor := 1 / c.angle_precision
  (a_id, b_id, rustRound (a_angle * factor), rustRound (b_angle * factor))

/-- `HashMap::get` on the association-list model: the value stored under
`k`, if any (keys are unique by construction). -/
def assocLookup {κ β : Type} [DecidableEq κ] (k : κ) : List (κ × β) → Option β
  | [] => none
  | (k', v) :: rest => if k' = k then some v else assocLookup k rest

/-- `nfp.rs::NfpCache::get_or_generate`: on a hit return the stored polygon
(a clone) and leave the cache untouched; on a miss compute the Minkowski
difference of the polygon arguments and insert it under the key. -/
def NfpCache.get_or_generate (bk : ClipBackend) (c : NfpCache)
    (a_id b_id : Nat) (a_angle b_angle : ℚ) (a b : List Point) :
    List Point × NfpCache :=
  let key := c.keyOf a_id b_id a_angle b_angle
  match assocLookup key c.cache with
  | some v => (v, c)
  | none =>
    let nfp := minkowski_difference_clip bk a b
    (nfp, { c with cache := (key, nfp) :: c.cache })

/-- `nfp.rs::no_fit_polygon_rectangle`: closed-form interior NFP for an
axis-aligned rectangular container; `none` when either operand lacks bounds
or the part exceeds the container in a dimension. -/
def no_fit_polygon_rectangle (container part : List Point) :
    Option (List (List Point)) :=
  match get_polygon_bounds container, get_polygon_bounds part with
  | some ab, some bb =>
    if bb.width > ab.width ∨ bb.height > ab.height then none
    else
      let p0 := part.headD ⟨0, 0⟩
      let dx1 := ab.x - bb.x + p0.x
      let dy1 := ab.y - bb.y + p0.y
      let dx2 := ab.x + ab.width - (bb.x + bb.width) + p0.x
      let dy2 := ab.y + ab.height - (bb.y + bb.height) + p0.y
      some [[⟨dx1, dy1⟩, ⟨dx2, dy1⟩, ⟨dx2, dy2⟩, ⟨dx1, dy2⟩]]
  | _, _ => none

/-! ## Part model (`part.rs`) -/

/-- `part.rs::Part`: a set of polygons, normalized at construction. -/
structure Part where
  polygons : List Polygon
deriving DecidableEq, Repr

def Part.new (polys : List Polygon) : Part :=
  ⟨normalize_polygons polys⟩

/-- `part.rs::Part::rotated`: rotate every polygon about the origin, then
re-normalize the rotated set as a whole. -/
def Part.rotated (trig : ℚ → ℚ × ℚ) (p : Part) (angle : ℚ) : List Polygon :=
  normalize_polygons (p.polygons.map (fun poly =>
    { poly with points := rotate_polygon trig poly.points angle }))

def Part.bounds (p : Part) : Option Bounds :=
  get_polygons_bounds p.polygons

def Part.bounds_rotated (trig : ℚ → ℚ × ℚ) (p : Part) (angle : ℚ) : Option Bounds :=
  get_polygons_bounds (p.rotated trig angle)

/-! ## Genetic algorithm (`ga.rs`)

The thread RNG is replaced by explicit oracle data: every `rng.gen::<f64>()`
or `gen_range` draw becomes a rational argument, and every `shuffle` of the
candidate angle list becomes an oracle-supplied list.  Any concrete run of
the source corresponds to some choice of oracle values. -/

structure GAConfig where
  population_size : Nat
  mutation_rate : Nat
  rotations : Nat
  spacing : ℚ
  use_holes : Bool
  explore_concave : Bool
deriving Repr

structure Placement where
  idx : Nat
  angle : ℚ
  x : ℚ
  y : ℚ
deriving DecidableEq, Repr

structure FreeRect where
  x : ℚ
  y : ℚ
  width : ℚ
  height : ℚ
deriving DecidableEq, Repr

/-- Fitness is an f64: `⊤` models `f64::INFINITY`. -/
structure Individual where
  placement : List Nat
  rotation : List ℚ
  fitness : WithTop ℚ
deriving DecidableEq

/-- The exact value of `f64::MAX`, the initial fitness of fresh
individuals. -/
def f64MAX : ℚ := 2 ^ 1024 - 2 ^ 971

def defaultIndividual : Individual := ⟨[], [], (f64MAX : ℚ)⟩

def defaultPolygon : Polygon := ⟨0, [], true⟩

def defaultPart : Part := ⟨[]⟩

/-- `f64::signum` restricted to values representable in `ℚ`: `1` for
positives and (positive) zero, `-1` for negatives. -/
def rustSignum (q : ℚ) : ℚ :=
  if q < 0 then -1 else 1

/-- `(… ).floor() as usize`: `as usize` saturates negative values to 0. -/
def rustFloorToUsize (q : ℚ) : Nat := (⌊q⌋).toNat

/-- The rotated polygon set of part number `idx` (out-of-range indices give
the empty part; the source would panic there). -/
def partRotatedAt (trig : ℚ → ℚ × ℚ) (parts : List Part) (idx : Nat) (angle : ℚ) :
    List Polygon :=
  (parts.getD idx defaultPart).rotated trig angle

/-- `ga.rs::GeneticAlgorithm::random_angle`: first angle of the (oracle-)
shuffled candidate list whose rotated part AABB fits the bin; `0` when
`rotations == 0` or no candidate fits. -/
def random_angle (trig : ℚ → ℚ × ℚ) (cfg : GAConfig) (bin_bounds : Bounds)
    (part : Part) (shuffled : List ℚ) : ℚ :=
  if cfg.rotations = 0 then 0
  else
    match shuffled.find? (fun angle =>
      match get_polygons_bounds (part.rotated trig angle) with
      | some b => decide (b.width ≤ bin_bounds.width ∧ b.height ≤ bin_bounds.height)
      | none => false) with
    | some a => a
    | none => 0

/-- Swap the adjacent entries `i` and `i+1` (used by `placement.swap(i, i+1)`
whose bounds were checked by the caller). -/
def swapAdj (l : List Nat) (i : Nat) : List Nat :=
  (l.set i (l.getD (i + 1) 0)).set (i + 1) (l.getD i 0)

/-- One index step of `ga.rs::GeneticAlgorithm::mutate`: with probability
`mutation_rate%` swap gene `i` with its right neighbour (when it exists),
and independently with probability `mutation_rate%` redraw angle `i` for the
part now at position `i`. -/
def mutateStep (trig : ℚ → ℚ × ℚ) (cfg : GAConfig) (bin_bounds : Bounds)
    (parts : List Part) (swapCoin rotCoin : Nat → ℚ) (shuf : Nat → List ℚ)
    (st : List Nat × List ℚ) (i : Nat) : List Nat × List ℚ :=
  let rate : ℚ := (cfg.mutation_rate : ℚ) * (1 / 100)
  let pl := if swapCoin i < rate then
              (if i + 1 < st.1.length then swapAdj st.1 i else st.1)
            else st.1
  let rot := if rotCoin i < rate then
               st.2.set i (random_angle trig cfg bin_bounds
                 (parts.getD (pl.getD i 0) defaultPart) (shuf i))
             else st.2
  (pl, rot)

def mutate (trig : ℚ → ℚ × ℚ) (cfg : GAConfig) (bin_bounds : Bounds)
    (parts : List Part) (ind : Individual) (swapCoin rotCoin : Nat → ℚ)
    (shuf : Nat → List ℚ) : Individual :=
  let st := (List.range ind.placement.length).foldl
    (mutateStep trig cfg bin_bounds parts swapCoin rotCoin shuf)
    (ind.placement, ind.rotation)
  ⟨st.1, st.2, (f64MAX : ℚ)⟩

/-- The gene-filling loop of `ga.rs::GeneticAlgorithm::mate`: append each
`(gene, angle)` pair of the other parent whose gene is not already present
in the (growing) child. -/
def mateFill (src : List (Nat × ℚ)) (acc : List Nat × List ℚ) : List Nat × List ℚ :=
  src.foldl (fun acc pr =>
    if pr.1 ∈ acc.1 then acc else (acc.1 ++ [pr.1], acc.2 ++ [pr.2])) acc

/-- `ga.rs::GeneticAlgorithm::mate`: cut-and-fill crossover at
`cut = round(len * cutFrac)` where `cutFrac` is the `gen_range(0.1..0.9)`
draw. -/
def mate (male female : Individual) (cutFrac : ℚ) : Individual × Individual :=
  let len := male.placement.length
  let cut := (rustRound ((len : ℚ) * cutFrac)).toNat
  let g1 := mateFill (female.placement.zip female.rotation)
    (male.placement.take cut, male.rotation.take cut)
  let g2 := mateFill (male.placement.zip male.rotation)
    (female.placement.take cut, female.rotation.take cut)
  (⟨g1.1, g1.2, (f64MAX : ℚ)⟩, ⟨g2.1, g2.2, (f64MAX : ℚ)⟩)

/-- The scan loop of `ga.rs::GeneticAlgorithm::random_weighted_index`:
return the first index whose (strictly open) step interval contains `r`;
after checking position `pos` the next interval width is
`2 · weight · (n − pos)/n`. -/
def rwiGo (r weight : ℚ) (n : Nat) :
    List Nat → Nat → ℚ → ℚ → Option Nat
  | [], _, _, _ => none
  | i :: rest, pos, lower, upper =>
    if r > lower ∧ r < upper then some i
    else rwiGo r weight n rest (pos + 1) upper
      (upper + 2 * weight * (((n - pos : Nat) : ℚ) / (n : ℚ)))

/-- `ga.rs::GeneticAlgorithm::random_weighted_index` over a population of
`popLen` individuals: indices excluding `exclude`, a linearly varying step
distribution scanned against the single uniform draw `r`, falling back to
the first remaining index.  (The source's fallback `idxs[0]` panics on an
empty candidate list; the model returns `0` there, a state the program never
reaches.) -/
def rwiCandidates (popLen : Nat) (exclude : Option Nat) : List Nat :=
  (List.range popLen).filter (fun v =>
    match exclude with
    | some e => decide (v ≠ e)
    | none => true)

def random_weighted_index (popLen : Nat) (exclude : Option Nat) (r : ℚ) : Nat :=
  let idxs := rwiCandidates popLen exclude
  let weight : ℚ := 1 / (idxs.length : ℚ)
  match rwiGo r weight idxs.length idxs 0 0 weight with
  | some i => i
  | none => idxs.headD 0

/-! ## Layout evaluator (`ga.rs::layout`, `ga.rs::evaluate_static`) -/

structure LayoutState where
  x : ℚ
  y : ℚ
  bins : Nat
  placement : List Placement
deriving DecidableEq, Repr

/-- The shelf check of layout Strategy A (`ga.rs` lines 353–357): when
`x + b.width ≥ bin_width` a new bin is opened — `bins` is incremented, `x`
resets to `0` and `y` advances by `bin_height`; otherwise the cursor is
unchanged. -/
def shelfAdvance (binWidth binHeight : ℚ) (st : LayoutState) (bWidth : ℚ) :
    LayoutState :=
  if st.x + bWidth ≥ binWidth then
    { x := 0, y := st.y + binHeight, bins := st.bins + 1, placement := st.placement }
  else st

/-- The collision test both layout strategies run against every already
placed part (`ga.rs` lines 363–406 and 449–500, textually identical): first
the cached-NFP containment test, guarded by `nfp.len() >= 3`, then the
pairwise outer-polygon intersection test with the contained-in-a-hole
exemption.  The NFP cache is threaded through.  At the first collision the
source breaks out of the loop; the fold models this by passing the state
through unchanged afterwards. -/
def collideWithPlaced (bk : ClipBackend) (trig : ℚ → ℚ × ℚ) (parts : List Part)
    (placed : List Placement) (idx : Nat) (angle : ℚ) (rotated : List Polygon)
    (x y : ℚ) (cache : NfpCache) : Bool × NfpCache :=
  placed.foldl (fun st p =>
    if st.1 then st
    else
      let cache := st.2
      let other_rot := partRotatedAt trig parts p.idx p.angle
      let or0 := (other_rot.getD 0 defaultPolygon).points
      let orient_other := rustSignum (polygon_area or0)
      let r0 := (rotated.getD 0 defaultPolygon).points
      let res := cache.get_or_generate bk p.idx idx p.angle angle or0 r0
      let nfp := res.1
      let cache := res.2
      if 3 ≤ nfp.length ∧ point_in_polygon nfp (x - p.x) (y - p.y) then
        (true, cache)
      else
        let hit := other_rot.any (fun op =>
          if rustSignum (polygon_area op.points) ≠ orient_other then false
          else rotated.any (fun rp =>
            polygons_intersect bk op.points rp.points p.x p.y x y &&
            !(other_rot.any (fun hole =>
                decide (rustSignum (polygon_area hole.points) ≠ orient_other) &&
                polygon_contains_polygon hole.points rp.points p.x p.y x y))))
        (hit, cache))
    (false, cache)

/-- One part of layout Strategy A (linear shelf): skip parts without bounds
(`continue`); abort with `+∞` when the rotated AABB exceeds the bin; advance
the shelf cursor; abort on collision; otherwise record the placement and
advance `x` by `b.width + spacing`.  (The source also computes a bin NFP via
`inner_fit_polygon` and immediately discards it — a pure computation with no
observable effect, omitted here.) -/
def layoutAStep (bk : ClipBackend) (trig : ℚ → ℚ × ℚ) (parts : List Part)
    (cfg : GAConfig) (binWidth binHeight : ℚ)
    (st : Option LayoutState × NfpCache) (g : Nat × ℚ) :
    Option LayoutState × NfpCache :=
  match st.1 with
  | none => st
  | some s =>
    let rotated := partRotatedAt trig parts g.1 g.2
    match get_polygons_bounds rotated with
    | none => st
    | some b =>
      if b.width > binWidth ∨ b.height > binHeight then (none, st.2)
      else
        let s := shelfAdvance binWidth binHeight s b.width
        let res := collideWithPlaced bk trig parts s.placement g.1 g.2 rotated
          s.x s.y st.2
        if res.1 then (none, res.2)
        else
          (some { x := s.x + b.width + cfg.spacing, y := s.y, bins := s.bins,
                  placement := s.placement ++ [⟨g.1, g.2, s.x, s.y⟩] }, res.2)

/-- Layout Strategy A (`explore_concave == false`): fold `layoutAStep` over
the individual's genes; `(+∞, [])` on abort, else
`(bin_height · bins, placements)`. -/
def layoutA (bk : ClipBackend) (trig : ℚ → ℚ × ℚ) (parts : List Part)
    (bin_bounds : Bounds) (cfg : GAConfig) (ind : Individual) :
    WithTop ℚ × List Placement :=
  let init : Option LayoutState × NfpCache :=
    (some ⟨0, 0, 1, []⟩, NfpCache.new NfpCache.DEFAULT_ANGLE_PRECISION)
  let fin := (ind.placement.zip ind.rotation).foldl
    (layoutAStep bk trig parts cfg bin_bounds.width bin_bounds.height) init
  match fin.1 with
  | none => (⊤, [])
  | some s => (((bin_bounds.height * (s.bins : ℚ) : ℚ) : WithTop ℚ), s.placement)

/-- The rectangle scan of Strategy B: find the first free rectangle that
fits the AABB and passes the collision test, threading the NFP cache through
the attempted rectangles. -/
def tryRects (bk : ClipBackend) (trig : ℚ → ℚ × ℚ) (parts : List Part)
    (placed : List Placement) (idx : Nat) (angle : ℚ) (rotated : List Polygon)
    (b : Bounds) : List FreeRect → Nat → NfpCache →
    Option (Nat × FreeRect) × NfpCache
  | [], _, cache => (none, cache)
  | rect :: rest, i, cache =>
    if b.width ≤ rect.width ∧ b.height ≤ rect.height then
      let res := collideWithPlaced bk trig parts placed idx angle rotated
        rect.x rect.y cache
      if res.1 then tryRects bk trig parts placed idx angle rotated b rest (i + 1) res.2
      else (some (i, rect), res.2)
    else tryRects bk trig parts placed idx angle rotated b rest (i + 1) cache

/-- Shared state of Strategy B's outer loop. -/
structure BState where
  free : List FreeRect
  bins : Nat
  placement : List Placement
  cache : NfpCache

/-- Placing a part at free rectangle `rect` in Strategy B: remove the
rectangle, push the right and bottom strips when positive, and with
`use_holes` insert each hole AABB at the head of the free list. -/
def placeAtRect (cfg : GAConfig)
    (st : BState) (i : Nat) (rect : FreeRect) (idx : Nat) (angle : ℚ)
    (rotated : List Polygon) (b : Bounds) (cache : NfpCache) : BState :=
  let x := rect.x
  let y := rect.y
  let free := st.free.eraseIdx i
  let right_w := rect.width - b.width - cfg.spacing
  let free := if right_w > 0 then
      free ++ [⟨x + b.width + cfg.spacing, y, right_w, b.height⟩]
    else free
  let bottom_h := rect.height - b.height - cfg.spacing
  let free := if bottom_h > 0 then
      free ++ [⟨x, y + b.height + cfg.spacing, rect.width, bottom_h⟩]
    else free
  let free := if cfg.use_holes then
      let orient := rustSignum (polygon_area ((rotated.getD 0 defaultPolygon).points))
      (rotated.drop 1).foldl (fun free poly =>
        if orient ≠ 0 ∧ rustSignum (polygon_area poly.points) ≠ orient then
          match get_polygon_bounds poly.points with
          | some hb => ⟨x + hb.x, y + hb.y, hb.width, hb.height⟩ :: free
          | none => free
        else free) free
    else free
  { free := free, bins := st.bins,
    placement := st.placement ++ [⟨idx, angle, x, y⟩], cache := cache }

/-- The unbounded `loop { … }` of Strategy B, made total with explicit
`fuel`: each pass either places the part or appends a fresh full-size bin
rectangle and increments `bins`.  The source loop is unbounded; on fuel
exhaustion the model aborts (`none`), which can only differ from the source
on runs where the source would iterate longer than the supplied fuel. -/
def layoutBLoop (bk : ClipBackend) (trig : ℚ → ℚ × ℚ) (parts : List Part)
    (cfg : GAConfig) (binWidth binHeight : ℚ) (idx : Nat) (angle : ℚ)
    (rotated : List Polygon) (b : Bounds) :
    Nat → BState → Option BState
  | 0, _ => none
  | fuel + 1, st =>
    let res := tryRects bk trig parts st.placement idx angle rotated b st.free 0 st.cache
    match res.1 with
    | some ir => some (placeAtRect cfg st ir.1 ir.2 idx angle rotated b res.2)
    | none =>
      layoutBLoop bk trig parts cfg binWidth binHeight idx angle rotated b fuel
        { free := st.free ++ [⟨0, binHeight * (st.bins : ℚ), binWidth, binHeight⟩],
          bins := st.bins + 1, placement := st.placement, cache := res.2 }

/-- One part of layout Strategy B (maximal rectangle with optional hole
re-use). -/
def layoutBStep (bk : ClipBackend) (trig : ℚ → ℚ × ℚ) (parts : List Part)
    (cfg : GAConfig) (binWidth binHeight : ℚ) (fuel : Nat)
    (st : Option BState) (g : Nat × ℚ) : Option BState :=
  match st with
  | none => none
  | some s =>
    let rotated := partRotatedAt trig parts g.1 g.2
    match get_polygons_bounds rotated with
    | none => st
    | some b =>
      if b.width > binWidth ∨ b.height > binHeight then none
      else layoutBLoop bk trig parts cfg binWidth binHeight g.1 g.2 rotated b fuel s

/-- Layout Strategy B (`explore_concave == true`). -/
def layoutB (bk : ClipBackend) (trig : ℚ → ℚ × ℚ) (parts : List Part)
    (bin_bounds : Bounds) (cfg : GAConfig) (fuel : Nat) (ind : Individual) :
    WithTop ℚ × List Placement :=
  let init : BState :=
    { free := [⟨0, 0, bin_bounds.width, bin_bounds.height⟩], bins := 1,
      placement := [], cache := NfpCache.new NfpCache.DEFAULT_ANGLE_PRECISION }
  let fin := (ind.placement.zip ind.rotation).foldl
    (layoutBStep bk trig parts cfg bin_bounds.width bin_bounds.height fuel)
    (some init)
  match fin with
  | none => (⊤, [])
  | some s => (((bin_bounds.height * (s.bins : ℚ) : ℚ) : WithTop ℚ), s.placement)

/-- Per-part fuel handed to Strategy B's unbounded loop by the dispatcher
(a bound on new-bin openings per part; generous for any non-adversarial
clipping backend). -/
def layoutBFuel (ind : Individual) : Nat :=
  1000 + ind.placement.length * 4

/-- `ga.rs::layout`: dispatch on `explore_concave`. -/
def layout (bk : ClipBackend) (trig : ℚ → ℚ × ℚ) (parts : List Part)
    (bin_bounds : Bounds) (cfg : GAConfig) (ind : Individual) :
    WithTop ℚ × List Placement :=
  if cfg.explore_concave then
    layoutB bk trig parts bin_bounds cfg (layoutBFuel ind) ind
  else
    layoutA bk trig parts bin_bounds cfg ind

/-- The pre-filter of `ga.rs::evaluate_static`: keep the genes whose rotated
AABB exists and fits the bin in both dimensions; all others count as
unplaceable. -/
def placeableGene (trig : ℚ → ℚ × ℚ) (parts : List Part) (bin_bounds : Bounds)
    (g : Nat × ℚ) : Bool :=
  match get_polygons_bounds (partRotatedAt trig parts g.1 g.2) with
  | some b => decide (b.width ≤ bin_bounds.width ∧ b.height ≤ bin_bounds.height)
  | none => false

def prefilter (trig : ℚ → ℚ × ℚ) (parts : List Part) (bin_bounds : Bounds)
    (ind : Individual) : Individual × Nat :=
  let gs := ind.placement.zip ind.rotation
  let kept := gs.filter (placeableGene trig parts bin_bounds)
  (⟨kept.map (·.1), kept.map (·.2), ((0 : ℚ) : WithTop ℚ)⟩,
   (gs.filter (fun g => !placeableGene trig parts bin_bounds g)).length)

/-- The per-bin running-maximum map of `evaluate_static`, modelled as an
association list with at most one entry per bin index (`HashMap::entry`
`and_modify … or_insert`). -/
def upsertMax : List (Nat × ℚ) → Nat → ℚ → List (Nat × ℚ)
  | [], k, w => [(k, w)]
  | (k', v) :: rest, k, w =>
    if k' = k then (k', if w > v then w else v) :: rest
    else (k', v) :: upsertMax rest k w

/-- The width contributions of the pair list `L` that fall into bin `k`. -/
def valuesFor (L : List (Nat × ℚ)) (k : Nat) : List ℚ :=
  (L.filter (fun e => e.1 = k)).map (·.2)

/-- Folding the incremental maximum (as `upsertMax` stores it) over a list
of candidate widths, starting from an optional current maximum. -/
def combineMax (o : Option ℚ) (l : List ℚ) : Option ℚ :=
  l.foldl (fun o w => some (match o with
    | some v => if w > v then w else v
    | none => w)) o

/-- `bin_width`: for every placement that has rotated bounds, update bin
`⌊p.y / bin_height⌋` with candidate width `p.x + b.width`. -/
def binWidthMap (trig : ℚ → ℚ × ℚ) (parts : List Part) (bin_bounds : Bounds)
    (placed : List Placement) : List (Nat × ℚ) :=
  placed.foldl (fun m p =>
    match get_polygons_bounds (partRotatedAt trig parts p.idx p.angle) with
    | some b => upsertMax m (rustFloorToUsize (p.y / bin_bounds.height)) (p.x + b.width)
    | none => m) []

/-- `ga.rs::evaluate_static`: pre-filter, lay out, `+∞` on infinite height,
else `#bins + Σ width/bin_area + 2·unplaceable`. -/
def evaluate_static (bk : ClipBackend) (trig : ℚ → ℚ × ℚ) (ind : Individual)
    (parts : List Part) (bin_bounds : Bounds) (cfg : GAConfig) : WithTop ℚ :=
  let pf := prefilter trig parts bin_bounds ind
  let lay := layout bk trig parts bin_bounds cfg pf.1
  match lay.1 with
  | none => ⊤
  | some _ =>
    let bw := binWidthMap trig parts bin_bounds lay.2
    let bin_area := bin_bounds.width * bin_bounds.height
    (((bw.length : ℚ) + (bw.map (fun e => e.2 / bin_area)).sum
      + 2 * (pf.2 : ℚ) : ℚ) : WithTop ℚ)

/-! ## Population, generations, evolve (`ga.rs`) -/

/-- `sort_by(partial_cmp.unwrap_or(Equal))`: a stable ascending sort by
fitness (fitness values are never NaN in the model, so `partial_cmp` is a
total order). -/
def sortPop (pop : List Individual) : List Individual :=
  pop.mergeSort (fun a b => decide (a.fitness ≤ b.fitness))

/-- Oracle data consumed by one reproduction iteration of
`ga.rs::GeneticAlgorithm::generation`: the two selection draws, the
crossover cut draw, and the mutation coins / angle shuffles of the (up to)
two children. -/
structure GenOracle where
  pick1 : Nat → ℚ
  pick2 : Nat → ℚ
  cutFrac : Nat → ℚ
  swap1 : Nat → Nat → ℚ
  rot1 : Nat → Nat → ℚ
  shuf1 : Nat → Nat → List ℚ
  swap2 : Nat → Nat → ℚ
  rot2 : Nat → Nat → ℚ
  shuf2 : Nat → Nat → List ℚ

/-- The `while newpop.len() < population.len()` reproduction loop:
`remaining` counts the slots still to fill, `iter` indexes the oracle. -/
def genFill (trig : ℚ → ℚ × ℚ) (cfg : GAConfig) (bin_bounds : Bounds)
    (parts : List Part) (O : GenOracle) (sorted : List Individual) (n : Nat) :
    Nat → Nat → List Individual → List Individual
  | _, 0, acc => acc
  | iter, remaining + 1, acc =>
    let m := random_weighted_index n none (O.pick1 iter)
    let f := random_weighted_index n (some m) (O.pick2 iter)
    let cs := mate (sorted.getD m defaultIndividual) (sorted.getD f defaultIndividual)
      (O.cutFrac iter)
    let d1 := mutate trig cfg bin_bounds parts cs.1 (O.swap1 iter) (O.rot1 iter)
      (O.shuf1 iter)
    match remaining with
    | 0 => acc ++ [d1]
    | remaining' + 1 =>
      let d2 := mutate trig cfg bin_bounds parts cs.2 (O.swap2 iter) (O.rot2 iter)
        (O.shuf2 iter)
      genFill trig cfg bin_bounds parts O sorted n (iter + 1) remaining' (acc ++ [d1, d2])

/-- `ga.rs::GeneticAlgorithm::generation`: sort ascending by fitness, copy
the fittest individual (elitism), then select/mate/mutate until the new
population is full. -/
def generationStep (trig : ℚ → ℚ × ℚ) (cfg : GAConfig) (bin_bounds : Bounds)
    (parts : List Part) (O : GenOracle) (pop : List Individual) : List Individual :=
  let sorted := sortPop pop
  genFill trig cfg bin_bounds parts O sorted pop.length 0 (pop.length - 1)
    [sorted.headD defaultIndividual]

/-- `ga.rs::GeneticAlgorithm::evaluate_population`: recompute every
individual's fitness (the parallel `par_iter_mut` writes each fitness
independently, so the result is this map). -/
def evalPop (bk : ClipBackend) (trig : ℚ → ℚ × ℚ) (parts : List Part)
    (bin_bounds : Bounds) (cfg : GAConfig) (pop : List Individual) :
    List Individual :=
  pop.map (fun ind =>
    { ind with fitness := evaluate_static bk trig ind parts bin_bounds cfg })

/-- `ga.rs::GeneticAlgorithm::evolve`: `generations` rounds of
evaluate-then-reproduce, followed by a final re-evaluation. -/
def evolve (bk : ClipBackend) (trig : ℚ → ℚ × ℚ) (parts : List Part)
    (bin_bounds : Bounds) (cfg : GAConfig) (O : Nat → GenOracle)
    (pop : List Individual) (generations : Nat) : List Individual :=
  evalPop bk trig parts bin_bounds cfg
    ((List.range generations).foldl
      (fun p g => generationStep trig cfg bin_bounds parts (O g)
        (evalPop bk trig parts bin_bounds cfg p))
      pop)

/-- Oracle data consumed by `GeneticAlgorithm::new`: the shuffled angle
candidate list for each part of the base individual, and the mutation
coins / shuffles of each of the `population_size − 1` initial mutants. -/
structure InitOracle where
  baseShuf : Nat → List ℚ
  swapC : Nat → Nat → ℚ
  rotC : Nat → Nat → ℚ
  shuf : Nat → Nat → List ℚ

/-- `ga.rs::GeneticAlgorithm::new`: fail when the bin polygon has no bounds;
otherwise the base individual is the identity permutation with
oracle-drawn valid angles, padded with mutations of the base up to
`population_size`. -/
def newPopulation (trig : ℚ → ℚ × ℚ) (cfg : GAConfig) (parts : List Part)
    (bin : Polygon) (O : InitOracle) : Option (List Individual) :=
  match get_polygon_bounds bin.points with
  | none => none
  | some bb =>
    let base : Individual :=
      ⟨List.range parts.length,
       (List.range parts.length).map (fun i =>
         random_angle trig cfg bb (parts.getD i defaultPart) (O.baseShuf i)),
       (f64MAX : ℚ)⟩
    some (base :: (List.range (cfg.population_size - 1)).map (fun k =>
      mutate trig cfg bb parts base (O.swapC k) (O.rotC k) (O.shuf k)))

/-! ## Spec-side definitions (for refinement claims)

These follow the wording of the specification, to be compared against the
source-derived definitions above. -/

/-- Modelled from the spec (§4.4): a gene is kept unless its rotated AABB
"exceeds the bin AABB in either dimension" (degenerate parts without an
AABB are also dropped). -/
def specKeepGene (trig : ℚ → ℚ × ℚ) (parts : List Part) (bin_bounds : Bounds)
    (g : Nat × ℚ) : Bool :=
  match get_polygons_bounds (partRotatedAt trig parts g.1 g.2) with
  | some b => !(decide (b.width > bin_bounds.width ∨ b.height > bin_bounds.height))
  | none => false

/-- The bin a placement belongs to, `floor(P.y / bin_height)`, together with
its width contribution `P.x + AABB.width`; `none` for a placement whose
rotated part has no AABB. -/
def placementBinWidth (trig : ℚ → ℚ × ℚ) (parts : List Part) (bin_bounds : Bounds)
    (p : Placement) : Option (Nat × ℚ) :=
  (get_polygons_bounds (partRotatedAt trig parts p.idx p.angle)).map
    (fun b => (rustFloorToUsize (p.y / bin_bounds.height), p.x + b.width))

/-- Modelled from the spec (§4.4 Fitness): drop the genes whose rotated AABB
exceeds the bin, count them as `unplaceable`; lay out; `+∞` if the height is
`+∞`; otherwise `bins_used + Σ_{bins in use} width_used/(bin_width·bin_height)
+ 2·unplaceable` with `width_used` the maximum `P.x + AABB.width` over the
placements of that bin. -/
def specFitness (bk : ClipBackend) (trig : ℚ → ℚ × ℚ) (ind : Individual)
    (parts : List Part) (bin_bounds : Bounds) (cfg : GAConfig) : WithTop ℚ :=
  let gs := ind.placement.zip ind.rotation
  let kept := gs.filter (specKeepGene trig parts bin_bounds)
  let unplaceable := gs.length - kept.length
  let lay := layout bk trig parts bin_bounds cfg
    ⟨kept.map (·.1), kept.map (·.2), ((0 : ℚ) : WithTop ℚ)⟩
  if lay.1 = ⊤ then ⊤
  else
    let pairs := lay.2.filterMap (placementBinWidth trig parts bin_bounds)
    let bins := (pairs.map (·.1)).dedup
    let widthUsed : Nat → ℚ := fun k =>
      (((pairs.filter (fun e => e.1 = k)).map (·.2)).max?).getD 0
    (((bins.length : ℚ)
      + (bins.map (fun k => widthUsed k / (bin_bounds.width * bin_bounds.height))).sum
      + 2 * (unplaceable : ℚ) : ℚ) : WithTop ℚ)

/-- Entry `S[i][j] = a_j − b_i` of the spec's difference matrix (§4.2 step
1), written by direct indexing. -/
def sMatrixEntry (a b : List Point) (i j : Nat) : Point :=
  let pa := a.getD j ⟨0, 0⟩
  let pb := b.getD i ⟨0, 0⟩
  ⟨pa.x - pb.x, pa.y - pb.y⟩

/-- The spec's quadrilateral `Q_{ij} = [S[i][j], S[i+1][j], S[i+1][j+1],
S[i][j+1]]`, indices modulo `lb`, `la` (§4.2 step 2). -/
def specQuad (a b : List Point) (i j : Nat) : List Point :=
  let la := a.length
  let lb := b.length
  [sMatrixEntry a b (i % lb) (j % la),
   sMatrixEntry a b ((i + 1) % lb) (j % la),
   sMatrixEntry a b ((i + 1) % lb) ((j + 1) % la),
   sMatrixEntry a b (i % lb) ((j + 1) % la)]

/-- Reverse the quad when its `signed_area` is negative (§4.2 step 2). -/
def specOrientedQuad (a b : List Point) (i j : Nat) : List Point :=
  let q := specQuad a b i j
  if polygon_area q < 0 then q.reverse else q

/-- The spec's `lb × la` family of oriented quads (§4.2 step 2). -/
def specQuadList (a b : List Point) : List (List Point) :=
  (List.range b.length).flatMap (fun i =>
    (List.range a.length).map (fun j => specOrientedQuad a b i j))

/-- The union of all oriented quads through the clipping backend (§4.2 step
3), in the source's accumulation order. -/
def specQuadUnion (bk : ClipBackend) (a b : List Point) : List GeoPoly :=
  (quadUnionFold bk (specQuadList a b)).getD []

/-- Modelled from the spec as the claim reads it: after the edge-quad union,
choose the ring with the smallest (most negative) signed area *under the
program's winding convention* — that is, minimizing `polygon_area` of the
ring — and translate it by `+b₀` (§4.2 steps 4–5). -/
def specMinkowskiProgramConvention (bk : ClipBackend) (a b : List Point) :
    List Point :=
  if a = [] ∨ b = [] then []
  else
    match rustMinBy (fun p : GeoPoly => polygon_area p.exterior)
      (specQuadUnion bk a b) with
    | some poly =>
      let b0 := b.headD ⟨0, 0⟩
      poly.exterior.map (fun p => ⟨p.x + b0.x, p.y + b0.y⟩)
    | none => []

/-- The same construction with the selection the source actually performs:
minimize the `geo` crate's `signed_area` (standard shoelace,
counter-clockwise positive — the negation of the program's winding
convention). -/
def specMinkowskiGeoConvention (bk : ClipBackend) (a b : List Point) :
    List Point :=
  if a = [] ∨ b = [] then []
  else
    match rustMinBy geoSignedArea (specQuadUnion bk a b) with
    | some poly =>
      let b0 := b.headD ⟨0, 0⟩
      poly.exterior.map (fun p => ⟨p.x + b0.x, p.y + b0.y⟩)
    | none => []

/-! ## Concrete instances used by counterexamples and witnesses -/

/-- Exact cosine/sine pairs for the right-angle rotations used by the
concrete runs (`rotations = 4` yields angles 0, 90, 180, 270). -/
def rightAngleTrig (θ : ℚ) : ℚ × ℚ :=
  if θ = 0 then (1, 0)
  else if θ = 90 then (0, 1)
  else if θ = 180 then (-1, 0)
  else if θ = 270 then (0, -1)
  else (1, 0)

/-- Counter-clockwise axis-aligned rectangle with corner at the origin. -/
def rectPoly (w h : ℚ) : List Point :=
  [⟨0, 0⟩, ⟨w, 0⟩, ⟨w, h⟩, ⟨0, h⟩]

/-- A clipping backend none of whose operations are reached in the concrete
single-part evolve run (the placed-parts loop never iterates there). -/
def inertBackend : ClipBackend :=
  ⟨fun mp _ => mp, fun _ _ => false⟩

/-- A clipping backend whose union yields two rings of different areas,
separating the two ring-selection conventions. -/
def twoRingBackend : ClipBackend :=
  ⟨fun _ _ => [⟨[⟨0, 0⟩, ⟨4, 0⟩, ⟨0, 4⟩], []⟩, ⟨[⟨0, 0⟩, ⟨2, 0⟩, ⟨0, 2⟩], []⟩],
   fun _ _ => false⟩

def cexTriangle : List Point := [⟨0, 0⟩, ⟨1, 0⟩, ⟨0, 1⟩]

/-- The single 6×2 part of the `evolve` counterexample run. -/
def cexPart : Part := ⟨[⟨0, rectPoly 6 2, true⟩]⟩

/-- 10×10 bin. -/
def cexBinPoly : Polygon := ⟨0, rectPoly 10 10, true⟩

/-- population 2, mutation rate 100 %, four rotations, Strategy A. -/
def cexCfg : GAConfig :=
  { population_size := 2, mutation_rate := 100, rotations := 4,
    spacing := 0, use_holes := false, explore_concave := false }

/-- Initial-population oracle: the base individual draws angle 0 (first
fitting candidate), the single initial mutant redraws to angle 180. -/
def cexInitOracle : InitOracle :=
  { baseShuf := fun _ => [0, 90, 180, 270],
    swapC := fun _ _ => 0, rotC := fun _ _ => 0,
    shuf := fun _ _ => [180, 0, 90, 270] }

/-- Generation oracle: select parents 0 and 1, cut at `round(len/2)`, and
mutate the first child's angle to 90 (the best rotation, halving the used
width). -/
def cexGenOracle : Nat → GenOracle := fun _ =>
  { pick1 := fun _ => 1 / 4, pick2 := fun _ => 1 / 4, cutFrac := fun _ => 1 / 2,
    swap1 := fun _ _ => 0, rot1 := fun _ _ => 0, shuf1 := fun _ _ => [90, 0, 180, 270],
    swap2 := fun _ _ => 0, rot2 := fun _ _ => 0, shuf2 := fun _ _ => [0, 90, 180, 270] }

def cexInitPop : List Individual :=
  (newPopulation rightAngleTrig cexCfg [cexPart] cexBinPoly cexInitOracle).getD []

/-- One full generation of `evolve` on the concrete run. -/
def cexEvolved : List Individual :=
  evolve inertBackend rightAngleTrig [cexPart] ⟨0, 0, 10, 10⟩ cexCfg
    cexGenOracle cexInitPop 1

/-- The structural invariant of §8.1: placement and rotation have one entry
per part and the placement is a permutation of `0..n`. -/
def WF (n : Nat) (ind : Individual) : Prop :=
  ind.placement.length = n ∧ ind.rotation.length = n ∧
  ind.placement.Perm (List.range n)

/-- The rectangle the spec promises for the rectangular inner-fit case:
corner `(ax + part[0].x − bx, ay + part[0].y − by)`, width `W − w`, height
`H − h`. -/
def specInnerFitRect (ab bb : Bounds) (p0 : Point) : List Point :=
  let cx := ab.x + p0.x - bb.x
  let cy := ab.y + p0.y - bb.y
  [⟨cx, cy⟩, ⟨cx + (ab.width - bb.width), cy⟩,
   ⟨cx + (ab.width - bb.width), cy + (ab.height - bb.height)⟩,
   ⟨cx, cy + (ab.height - bb.height)⟩]

/-! ## Helper lemmas -/

theorem foldl_min_le_init {α : Type} [LinearOrder α] (l : List α) (a : α) :
    l.foldl min a ≤ a := by
  induction l generalizing a with
  | nil => simp
  | cons x xs ih => exact le_trans (ih _) (min_le_left _ _)

theorem foldl_min_le_mem {α : Type} [LinearOrder α] {l : List α} {x : α}
    (h : x ∈ l) (a : α) : l.foldl min a ≤ x := by
  induction l generalizing a with
  | nil => cases h
  | cons y ys ih =>
    rcases List.mem_cons.mp h with rfl | h'
    · simp only [List.foldl_cons]
      exact le_trans (foldl_min_le_init ys (min a x)) (min_le_right _ _)
    · exact ih h' _

theorem foldl_min_mem {α : Type} [LinearOrder α] (l : List α) (a : α) :
    l.foldl min a ∈ a :: l := by
  induction l generalizing a with
  | nil => simp
  | cons x xs ih =>
    simp only [List.foldl_cons]
    rcases List.mem_cons.mp (ih (min a x)) with h | h
    · rcases min_choice a x with h' | h'
      · rw [h, h']; exact List.mem_cons_self _ _
      · rw [h, h']; exact List.mem_cons_of_mem _ (List.mem_cons_self _ _)
    · exact List.mem_cons_of_mem _ (List.mem_cons_of_mem _ h)

/-- The interval scan only ever returns a member of the candidate list. -/
theorem rwiGo_mem {r w : ℚ} {n : Nat} :
    ∀ {l : List Nat} {pos : Nat} {lower upper : ℚ} {i : Nat},
      rwiGo r w n l pos lower upper = some i → i ∈ l := by
  intro l
  induction l with
  | nil => intro pos lower upper i h; simp [rwiGo] at h
  | cons x xs ih =>
    intro pos lower upper i h
    rw [rwiGo] at h
    split at h
    · injection h with h'
      exact h' ▸ List.mem_cons_self _ _
    · exact List.mem_cons_of_mem _ (ih h)

/-- `random_weighted_index` always returns a member of the candidate list
when that list is non-empty. -/
theorem rwi_mem (popLen : Nat) (exclude : Option Nat) (r : ℚ)
    (h : rwiCandidates popLen exclude ≠ []) :
    random_weighted_index popLen exclude r ∈ rwiCandidates popLen exclude := by
  simp only [random_weighted_index]
  cases hg : rwiGo r (1 / (((rwiCandidates popLen exclude).length : Nat) : ℚ))
      (rwiCandidates popLen exclude).length (rwiCandidates popLen exclude) 0 0
      (1 / (((rwiCandidates popLen exclude).length : Nat) : ℚ)) with
  | some i =>
    exact rwiGo_mem hg
  | none =>
    rcases hl : rwiCandidates popLen exclude with _ | ⟨a, t⟩
    · exact absurd hl h
    · exact List.mem_cons_self _ _

/-! ## C9 — Part construction normalizes to the origin -/

/-- Minima characterization of `get_polygon_bounds` for a polygon with at
least three points: the AABB corner is a lower bound on, and attained by,
the coordinates. -/
theorem poly_bounds_char (pts : List Point) (h : 3 ≤ pts.length) :
    ∃ bb, get_polygon_bounds pts = some bb ∧
      (∀ p ∈ pts, bb.x ≤ p.x ∧ bb.y ≤ p.y) ∧
      (∃ p ∈ pts, p.x = bb.x) ∧ (∃ p ∈ pts, p.y = bb.y) := by
  rcases pts with _ | ⟨p0, rest⟩
  · simp at h
  · have hlen : ¬((p0 :: rest).length < 3) := by omega
    have hgb : get_polygon_bounds (p0 :: rest)
        = some ⟨minXOf p0 rest, minYOf p0 rest,
            maxXOf p0 rest - minXOf p0 rest,
            maxYOf p0 rest - minYOf p0 rest⟩ := by
      simp only [get_polygon_bounds, if_neg hlen]
    refine ⟨_, hgb, ?_, ?_, ?_⟩
    · intro p hp
      have hx : minXOf p0 rest ≤ p.x := by
        unfold minXOf
        rw [← List.foldl_map (f := Point.x) (g := min)]
        rcases List.mem_cons.mp hp with rfl | hmem
        · exact foldl_min_le_init _ _
        · exact foldl_min_le_mem (List.mem_map_of_mem _ hmem) _
      have hy : minYOf p0 rest ≤ p.y := by
        unfold minYOf
        rw [← List.foldl_map (f := Point.y) (g := min)]
        rcases List.mem_cons.mp hp with rfl | hmem
        · exact foldl_min_le_init _ _
        · exact foldl_min_le_mem (List.mem_map_of_mem _ hmem) _
      exact ⟨hx, hy⟩
    · have hmem := foldl_min_mem (rest.map Point.x) p0.x
      unfold minXOf
      rw [← List.foldl_map (f := Point.x) (g := min)]
      rcases List.mem_cons.mp hmem with hh | hh
      · exact ⟨p0, List.mem_cons_self _ _, hh.symm⟩
      · rcases List.mem_map.mp hh with ⟨p, hp, hpx⟩
        exact ⟨p, List.mem_cons_of_mem _ hp, hpx⟩
    · have hmem := foldl_min_mem (rest.map Point.y) p0.y
      unfold minYOf
      rw [← List.foldl_map (f := Point.y) (g := min)]
      rcases List.mem_cons.mp hmem with hh | hh
      · exact ⟨p0, List.mem_cons_self _ _, hh.symm⟩
      · rcases List.mem_map.mp hh with ⟨p, hp, hpy⟩
        exact ⟨p, List.mem_cons_of_mem _ hp, hpy⟩

/-- Minima characterization of `get_polygons_bounds` when every polygon has
at least three points and the list is non-empty. -/
theorem polys_bounds_char (polys : List Polygon) (hne : polys ≠ [])
    (h3 : ∀ poly ∈ polys, 3 ≤ poly.points.length) :
    ∃ b, get_polygons_bounds polys = some b ∧
      (∀ poly ∈ polys, ∀ p ∈ poly.points, b.x ≤ p.x ∧ b.y ≤ p.y) ∧
      (∃ poly ∈ polys, ∃ p ∈ poly.points, p.x = b.x) ∧
      (∃ poly ∈ polys, ∃ p ∈ poly.points, p.y = b.y) := by
  have hbs : ∀ bb ∈ polys.filterMap (fun p => get_polygon_bounds p.points),
      ∃ poly ∈ polys, get_polygon_bounds poly.points = some bb :=
    fun bb hbb => List.mem_filterMap.mp hbb
  have hall : ∀ poly ∈ polys, ∃ bb,
      get_polygon_bounds poly.points = some bb ∧
      bb ∈ polys.filterMap (fun p => get_polygon_bounds p.points) ∧
      (∀ p ∈ poly.points, bb.x ≤ p.x ∧ bb.y ≤ p.y) ∧
      (∃ p ∈ poly.points, p.x = bb.x) ∧ (∃ p ∈ poly.points, p.y = bb.y) := by
    intro poly hpoly
    rcases poly_bounds_char poly.points (h3 poly hpoly) with ⟨bb, hbb, hlow, hax, hay⟩
    exact ⟨bb, hbb, List.mem_filterMap.mpr ⟨poly, hpoly, hbb⟩, hlow, hax, hay⟩
  rcases hfm : polys.filterMap (fun p => get_polygon_bounds p.points) with _ | ⟨b0, bs⟩
  · rcases polys with _ | ⟨poly0, rest⟩
    · exact absurd rfl hne
    · rcases hall poly0 (List.mem_cons_self _ _) with ⟨bb, _, hmem, _⟩
      rw [hfm] at hmem; cases hmem
  · have hgb : get_polygons_bounds polys
        = some ⟨bs.foldl (fun m bb' => min m bb'.x) b0.x,
            bs.foldl (fun m bb' => min m bb'.y) b0.y,
            bs.foldl (fun m bb' => max m (bb'.x + bb'.width)) (b0.x + b0.width)
              - bs.foldl (fun m bb' => min m bb'.x) b0.x,
            bs.foldl (fun m bb' => max m (bb'.y + bb'.height)) (b0.y + b0.height)
              - bs.foldl (fun m bb' => min m bb'.y) b0.y⟩ := by
      simp only [get_polygons_bounds, hfm]
    refine ⟨_, hgb, ?_, ?_, ?_⟩
    · intro poly hpoly p hp
      rcases hall poly hpoly with ⟨bb, _, hmem, hlow, _, _⟩
      rw [hfm] at hmem
      have hxle : bs.foldl (fun m bb' => min m bb'.x) b0.x ≤ bb.x := by
        rw [← List.foldl_map (f := Bounds.x) (g := min)]
        rcases List.mem_cons.mp hmem with rfl | hmem'
        · exact foldl_min_le_init _ _
        · exact foldl_min_le_mem (List.mem_map_of_mem _ hmem') _
      have hyle : bs.foldl (fun m bb' => min m bb'.y) b0.y ≤ bb.y := by
        rw [← List.foldl_map (f := Bounds.y) (g := min)]
        rcases List.mem_cons.mp hmem with rfl | hmem'
        · exact foldl_min_le_init _ _
        · exact foldl_min_le_mem (List.mem_map_of_mem _ hmem') _
      exact ⟨le_trans hxle (hlow p hp).1, le_trans hyle (hlow p hp).2⟩
    · show ∃ poly ∈ polys, ∃ p ∈ poly.points,
        p.x = bs.foldl (fun m bb' => min m bb'.x) b0.x
      have hmem := foldl_min_mem (bs.map Bounds.x) b0.x
      rw [List.foldl_map (f := Bounds.x) (g := min)] at hmem
      have hex : ∃ bb ∈ b0 :: bs, bb.x = bs.foldl (fun m bb' => min m bb'.x) b0.x := by
        rcases List.mem_cons.mp hmem with hh | hh
        · exact ⟨b0, List.mem_cons_self _ _, hh.symm⟩
        · rcases List.mem_map.mp hh with ⟨bb, hbb, hbx⟩
          exact ⟨bb, List.mem_cons_of_mem _ hbb, hbx⟩
      rcases hex with ⟨bb, hbbmem, hbbx⟩
      rw [← hfm] at hbbmem
      rcases hbs bb hbbmem with ⟨poly, hpoly, hpb⟩
      rcases poly_bounds_char poly.points (h3 poly hpoly) with ⟨bb', hbb', _, hax, _⟩
      rw [hpb] at hbb'
      injection hbb' with hbb'
      rcases hax with ⟨p, hp, hpx⟩
      exact ⟨poly, hpoly, p, hp, by rw [hpx, ← hbb', hbbx]⟩
    · show ∃ poly ∈ polys, ∃ p ∈ poly.points,
        p.y = bs.foldl (fun m bb' => min m bb'.y) b0.y
      have hmem := foldl_min_mem (bs.map Bounds.y) b0.y
      rw [List.foldl_map (f := Bounds.y) (g := min)] at hmem
      have hex : ∃ bb ∈ b0 :: bs, bb.y = bs.foldl (fun m bb' => min m bb'.y) b0.y := by
        rcases List.mem_cons.mp hmem with hh | hh
        · exact ⟨b0, List.mem_cons_self _ _, hh.symm⟩
        · rcases List.mem_map.mp hh with ⟨bb, hbb, hby⟩
          exact ⟨bb, List.mem_cons_of_mem _ hbb, hby⟩
      rcases hex with ⟨bb, hbbmem, hbby⟩
      rw [← hfm] at hbbmem
      rcases hbs bb hbbmem with ⟨poly, hpoly, hpb⟩
      rcases poly_bounds_char poly.points (h3 poly hpoly) with ⟨bb', hbb', _, _, hay⟩
      rw [hpb] at hbb'
      injection hbb' with hbb'
      rcases hay with ⟨p, hp, hpy⟩
      exact ⟨poly, hpoly, p, hp, by rw [hpy, ← hbb', hbby]⟩

/-- Collapsing the nested minimum fold over all polygons' points into a
single fold over the joined coordinate list. -/
theorem nested_foldl_min (f : Point → WithTop ℚ) :
    ∀ (polys : List Polygon) (init : WithTop ℚ),
      polys.foldl (fun m poly => poly.points.foldl (fun m p => min m (f p)) m) init
        = (polys.flatMap (fun poly => poly.points.map f)).foldl min init := by
  intro polys
  induction polys with
  | nil => intro init; rfl
  | cons poly rest ih =>
    intro init
    simp only [List.foldl_cons, List.flatMap_cons, List.foldl_append]
    rw [ih, List.foldl_map]

/-- Characterization of the collective minimum fold (as used by
`normalize_polygons`) when some point exists: it is a finite value, a lower
bound, and attained. -/
theorem collective_foldl_char (f : Point → ℚ) (polys : List Polygon)
    (hpt : ∃ poly ∈ polys, poly.points ≠ []) :
    ∃ q : ℚ,
      polys.foldl (fun m poly =>
        poly.points.foldl (fun m p => min m ((f p : ℚ) : WithTop ℚ)) m) ⊤
        = (q : WithTop ℚ) ∧
      (∀ poly ∈ polys, ∀ p ∈ poly.points, q ≤ f p) ∧
      (∃ poly ∈ polys, ∃ p ∈ poly.points, f p = q) := by
  rw [nested_foldl_min]
  set L := polys.flatMap (fun poly => poly.points.map (fun p => ((f p : ℚ) : WithTop ℚ)))
    with hL
  have hmemL : ∀ poly ∈ polys, ∀ p ∈ poly.points, ((f p : ℚ) : WithTop ℚ) ∈ L := by
    intro poly hpoly p hp
    rw [hL]
    exact List.mem_flatMap.mpr ⟨poly, hpoly, List.mem_map_of_mem _ hp⟩
  rcases hpt with ⟨poly0, hpoly0, hpts0⟩
  rcases List.exists_mem_of_ne_nil poly0.points hpts0 with ⟨p0, hp0⟩
  have hle0 : L.foldl min ⊤ ≤ ((f p0 : ℚ) : WithTop ℚ) :=
    foldl_min_le_mem (hmemL poly0 hpoly0 p0 hp0) ⊤
  have hnot_top : L.foldl min ⊤ ≠ ⊤ := by
    intro htop
    rw [htop] at hle0
    exact absurd (top_le_iff.mp hle0) (by simp)
  have hmem := foldl_min_mem L ⊤
  rcases List.mem_cons.mp hmem with htop | hmemL'
  · exact absurd htop hnot_top
  · rcases List.mem_flatMap.mp (hL ▸ hmemL') with ⟨poly, hpoly, hmap⟩
    rcases List.mem_map.mp hmap with ⟨p, hp, hpf⟩
    refine ⟨f p, hpf.symm, ?_, poly, hpoly, p, hp, ?_⟩
    · intro poly' hpoly' p' hp'
      have := foldl_min_le_mem (hmemL poly' hpoly' p' hp') ⊤
      rw [← hpf] at this
      exact_mod_cast this
    · rfl

/-- After `normalize_polygons`, all coordinates are non-negative and the
zero x and zero y are attained (for a non-empty input with at least one
point). -/
theorem normalize_char (polys : List Polygon) (hne : polys ≠ [])
    (hpt : ∃ poly ∈ polys, poly.points ≠ []) :
    (∀ poly ∈ normalize_polygons polys, ∀ p ∈ poly.points, 0 ≤ p.x ∧ 0 ≤ p.y) ∧
    (∃ poly ∈ normalize_polygons polys, ∃ p ∈ poly.points, p.x = 0) ∧
    (∃ poly ∈ normalize_polygons polys, ∃ p ∈ poly.points, p.y = 0) := by
  rcases collective_foldl_char Point.x polys hpt with ⟨qx, hqx, hlbx, hatx⟩
  rcases collective_foldl_char Point.y polys hpt with ⟨qy, hqy, hlby, haty⟩
  have hmx : collectiveMinX polys = (qx : WithTop ℚ) := hqx
  have hmy : collectiveMinY polys = (qy : WithTop ℚ) := hqy
  unfold normalize_polygons
  rw [if_neg hne, hmx, hmy]
  by_cases hz : (qx : WithTop ℚ) = ((0 : ℚ) : WithTop ℚ) ∧
      (qy : WithTop ℚ) = ((0 : ℚ) : WithTop ℚ)
  · rw [if_pos hz]
    have hqx0 : qx = 0 := by exact_mod_cast hz.1
    have hqy0 : qy = 0 := by exact_mod_cast hz.2
    refine ⟨?_, ?_, ?_⟩
    · intro poly hpoly p hp
      exact ⟨hqx0 ▸ hlbx poly hpoly p hp, hqy0 ▸ hlby poly hpoly p hp⟩
    · rcases hatx with ⟨poly, hpoly, p, hp, hpx⟩
      exact ⟨poly, hpoly, p, hp, hqx0 ▸ hpx⟩
    · rcases haty with ⟨poly, hpoly, p, hp, hpy⟩
      exact ⟨poly, hpoly, p, hp, hqy0 ▸ hpy⟩
  · rw [if_neg hz]
    have hux : (↑qx : WithTop ℚ).untop' 0 = qx := WithTop.untop'_coe 0 qx
    have huy : (↑qy : WithTop ℚ).untop' 0 = qy := WithTop.untop'_coe 0 qy
    rw [hux, huy]
    refine ⟨?_, ?_, ?_⟩
    · intro poly' hpoly' p' hp'
      rcases List.mem_map.mp hpoly' with ⟨poly, hpoly, rfl⟩
      rcases List.mem_map.mp hp' with ⟨p, hp, rfl⟩
      exact ⟨by have := hlbx poly hpoly p hp; simp; linarith,
        by have := hlby poly hpoly p hp; simp; linarith⟩
    · rcases hatx with ⟨poly, hpoly, p, hp, hpx⟩
      refine ⟨_, List.mem_map_of_mem _ hpoly, _, List.mem_map_of_mem _ hp, ?_⟩
      simp [hpx]
    · rcases haty with ⟨poly, hpoly, p, hp, hpy⟩
      refine ⟨_, List.mem_map_of_mem _ hpoly, _, List.mem_map_of_mem _ hp, ?_⟩
      simp [hpy]

/-- `normalize_polygons` either returns the input unchanged or translates
every point of every polygon by a fixed offset. -/
theorem normalize_cases (polys : List Polygon) :
    normalize_polygons polys = polys ∨
    ∃ dx dy, normalize_polygons polys = polys.map (fun poly =>
      { poly with points := poly.points.map (fun p => ⟨p.x - dx, p.y - dy⟩) }) := by
  unfold normalize_polygons
  by_cases h0 : polys = []
  · rw [if_pos h0]; exact Or.inl rfl
  · rw [if_neg h0]
    by_cases hz : collectiveMinX polys = ((0 : ℚ) : WithTop ℚ) ∧
        collectiveMinY polys = ((0 : ℚ) : WithTop ℚ)
    · rw [if_pos hz]; exact Or.inl rfl
    · rw [if_neg hz]
      exact Or.inr ⟨(collectiveMinX polys).untop' 0,
        (collectiveMinY polys).untop' 0, rfl⟩

/-- **C9, counterexample.**  The empty polygon list vacuously satisfies
"each polygon has at least 3 points", yet `Part::new` yields a part with no
bounds, not `Some b` — the claim needs a non-empty input. -/
theorem part_new_empty_cex : (Part.new []).bounds = none := rfl

/-- **C9, amended.**  For every *non-empty* list of polygons in which each
polygon has at least 3 points, `Part::new` normalizes: `bounds()` is
`some b` with `b.x = 0` and `b.y = 0`, because construction translates every
point by the collective minimum x and y. -/
theorem part_new_normalized (polys : List Polygon) (hne : polys ≠ [])
    (h3 : ∀ poly ∈ polys, 3 ≤ poly.points.length) :
    ∃ b, (Part.new polys).bounds = some b ∧ b.x = 0 ∧ b.y = 0 := by
  have hne' : normalize_polygons polys ≠ [] := by
    rcases normalize_cases polys with h | ⟨dx, dy, h⟩
    · rw [h]; exact hne
    · rw [h]
      intro hcon
      exact hne (List.map_eq_nil_iff.mp hcon)
  have h3' : ∀ poly ∈ normalize_polygons polys, 3 ≤ poly.points.length := by
    rcases normalize_cases polys with h | ⟨dx, dy, h⟩
    · rw [h]; exact h3
    · rw [h]
      intro poly' hpoly'
      rcases List.mem_map.mp hpoly' with ⟨poly, hpoly, rfl⟩
      simpa using h3 poly hpoly
  have hpt : ∃ poly ∈ polys, poly.points ≠ [] := by
    rcases polys with _ | ⟨poly0, rest⟩
    · exact absurd rfl hne
    · refine ⟨poly0, List.mem_cons_self _ _, ?_⟩
      have := h3 poly0 (List.mem_cons_self _ _)
      intro hcon
      rw [hcon] at this
      simp at this
  rcases normalize_char polys hne hpt with ⟨hlb, hax, hay⟩
  rcases polys_bounds_char (normalize_polygons polys) hne' h3' with
    ⟨b, hb, hblb, hbx, hby⟩
  refine ⟨b, hb, ?_, ?_⟩
  · rcases hax with ⟨poly, hpoly, p, hp, hpx⟩
    rcases hbx with ⟨poly', hpoly', p', hp', hpx'⟩
    have h1 : b.x ≤ 0 := hpx ▸ (hblb poly hpoly p hp).1
    have h2 : 0 ≤ b.x := hpx' ▸ (hlb poly' hpoly' p' hp').1
    linarith
  · rcases hay with ⟨poly, hpoly, p, hp, hpy⟩
    rcases hby with ⟨poly', hpoly', p', hp', hpy'⟩
    have h1 : b.y ≤ 0 := hpy ▸ (hblb poly hpoly p hp).2
    have h2 : 0 ≤ b.y := hpy' ▸ (hlb poly' hpoly' p' hp').2
    linarith

/-- Witness for the amended C9: a concrete triangle away from the origin is
normalized to corner `(0,0)`. -/
theorem part_new_normalized_witness :
    ∃ b, (Part.new [⟨0, [⟨1, 2⟩, ⟨3, 2⟩, ⟨1, 5⟩], true⟩]).bounds = some b ∧
      b.x = 0 ∧ b.y = 0 :=
  part_new_normalized [⟨0, [⟨1, 2⟩, ⟨3, 2⟩, ⟨1, 5⟩], true⟩]
    (by simp) (by intro poly hpoly; rw [List.mem_singleton.mp hpoly]; simp)

/-! ## C3 — Strategy A shelf advance -/

/-- **C3.** In Strategy A the shelf check `x + b.width ≥ bin_width` (strict
`≥`, i.e. `bin_width ≤ x + b.width`) is exactly the condition under which a
new bin is started: `bins` increments, `x` resets to `0` and `y` advances by
`bin_height`; otherwise the state is unchanged.  With `x + b.width =
bin_width` (a flush fit) the new shelf is still opened.  `layoutAStep`
applies `shelfAdvance` to every part it places. -/
theorem shelfAdvance_new_bin_iff (binWidth binHeight x y : ℚ) (bins : Nat)
    (pl : List Placement) (bWidth : ℚ) :
    (binWidth ≤ x + bWidth →
      shelfAdvance binWidth binHeight ⟨x, y, bins, pl⟩ bWidth
        = ⟨0, y + binHeight, bins + 1, pl⟩) ∧
    (x + bWidth < binWidth →
      shelfAdvance binWidth binHeight ⟨x, y, bins, pl⟩ bWidth = ⟨x, y, bins, pl⟩) ∧
    ((shelfAdvance binWidth binHeight ⟨x, y, bins, pl⟩ bWidth).bins = bins + 1
      ↔ binWidth ≤ x + bWidth) := by
  unfold shelfAdvance
  refine ⟨fun h => ?_, fun h => ?_, ?_⟩
  · simp [ge_iff_le, h]
  · simp [ge_iff_le, not_le.mpr h]
  · by_cases h : binWidth ≤ x + bWidth
    · simp [ge_iff_le, h]
    · simp [ge_iff_le, h, not_le.mp h]

/-- Witness for C3, the flush case: bin width 10, cursor at `x = 4`, part
width 6 — `x + b.width = 10` equals the bin width, and a new shelf opens. -/
theorem shelfAdvance_new_bin_iff_witness :
    shelfAdvance 10 10 ⟨4, 0, 1, []⟩ 6 = ⟨0, 10, 2, []⟩ ∧
    shelfAdvance 10 10 ⟨4, 0, 1, []⟩ 5 = ⟨4, 0, 1, []⟩ := by
  constructor
  · have h := (shelfAdvance_new_bin_iff 10 10 4 0 1 [] 6).1 (by norm_num)
    rw [h]; norm_num
  · exact (shelfAdvance_new_bin_iff 10 10 4 0 1 [] 5).2.1 (by norm_num)

/-! ## C10 — point_in_polygon index safety under the NFP guard -/

/-- **C10.** `point_in_polygon` reads exactly the index pairs
`pipAccessPairs n` (with `j` starting at `n − 1`), so it needs a non-empty
polygon; under the guard `nfp.len() >= 3` that both layout strategies place
in front of every `point_in_polygon` call on a cached NFP (in
`collideWithPlaced`, used by `layoutAStep` and `tryRects`), the polygon is
non-empty and every access index is in bounds. -/
theorem pip_accesses_in_bounds (nfp : List Point) (h : 3 ≤ nfp.length) :
    nfp ≠ [] ∧
    ∀ ij ∈ pipAccessPairs nfp.length, ij.1 < nfp.length ∧ ij.2 < nfp.length := by
  constructor
  · intro hnil; rw [hnil] at h; simp at h
  · intro ij hij
    rcases List.mem_map.mp hij with ⟨i, hi, rfl⟩
    have hi' : i < nfp.length := List.mem_range.mp hi
    refine ⟨hi', ?_⟩
    by_cases h0 : i = 0
    · rw [if_pos h0]; omega
    · rw [if_neg h0]; omega

/-! ## C8 — rectangular inner-fit polygon -/

/-- `polygon_area` on an explicit quadrilateral. -/
theorem polygon_area_quad (p1 p2 p3 p4 : Point) :
    polygon_area [p1, p2, p3, p4] =
      (1 / 2) * (((p4.x + p1.x) * (p4.y - p1.y)) + ((p1.x + p2.x) * (p1.y - p2.y))
        + ((p2.x + p3.x) * (p2.y - p3.y)) + ((p3.x + p4.x) * (p3.y - p4.y))) := by
  simp [polygon_area, List.range_succ, List.getD]
  ring

/-- **C8.** When container and part both have an AABB,
`no_fit_polygon_rectangle` returns `none` exactly when the part AABB exceeds
the container AABB in either dimension; otherwise it returns the single
4-vertex rectangle with corner `(ax + part[0].x − bx, ay + part[0].y − by)`,
width `W − w` and height `H − h`, whose area magnitude is
`(W−w)·(H−h)`. -/
theorem nfp_rectangle_spec (container part : List Point) (ab bb : Bounds)
    (hc : get_polygon_bounds container = some ab)
    (hp : get_polygon_bounds part = some bb) :
    (no_fit_polygon_rectangle container part = none ↔
      bb.width > ab.width ∨ bb.height > ab.height) ∧
    (bb.width ≤ ab.width → bb.height ≤ ab.height →
      no_fit_polygon_rectangle container part =
        some [specInnerFitRect ab bb (part.headD ⟨0, 0⟩)] ∧
      |polygon_area (specInnerFitRect ab bb (part.headD ⟨0, 0⟩))| =
        (ab.width - bb.width) * (ab.height - bb.height)) := by
  have harea : polygon_area (specInnerFitRect ab bb (part.headD ⟨0, 0⟩)) =
      -((ab.width - bb.width) * (ab.height - bb.height)) := by
    simp only [specInnerFitRect]
    rw [polygon_area_quad]
    ring
  constructor
  · unfold no_fit_polygon_rectangle
    rw [hc, hp]
    by_cases hcond : bb.width > ab.width ∨ bb.height > ab.height
    · simp [hcond]
    · simp [hcond]
  · intro hw hh
    have hcond : ¬(bb.width > ab.width ∨ bb.height > ab.height) := by
      push_neg; exact ⟨hw, hh⟩
    constructor
    · unfold no_fit_polygon_rectangle
      rw [hc, hp]
      simp only [if_neg hcond]
      simp only [specInnerFitRect, Option.some.injEq, List.cons.injEq, and_true,
        Point.mk.injEq]
      ring_nf
      try trivial
      try simp
    · rw [harea, abs_neg]
      exact abs_of_nonneg (mul_nonneg (by linarith) (by linarith))

/-- Witness for C8: 10×10 container, 2×3 part — the inner-fit rectangle has
corner `(0,0)`, spans `8×7`, area 56. -/
theorem nfp_rectangle_spec_witness :
    no_fit_polygon_rectangle (rectPoly 10 10) (rectPoly 2 3) =
      some [specInnerFitRect ⟨0, 0, 10, 10⟩ ⟨0, 0, 2, 3⟩ ⟨0, 0⟩] ∧
    |polygon_area (specInnerFitRect ⟨0, 0, 10, 10⟩ ⟨0, 0, 2, 3⟩ ⟨0, 0⟩)| = 56 := by
  have h := (nfp_rectangle_spec (rectPoly 10 10) (rectPoly 2 3)
    ⟨0, 0, 10, 10⟩ ⟨0, 0, 2, 3⟩ (by with_unfolding_all decide)
    (by with_unfolding_all decide)).2 (by norm_num) (by norm_num)
  have hh : (rectPoly 2 3).headD (⟨0, 0⟩ : Point) = ⟨0, 0⟩ := rfl
  rw [hh] at h
  refine ⟨h.1, ?_⟩
  rw [h.2]; norm_num

/-! ## C5 — every individual is a permutation with parallel angles -/

/-- Swapping adjacent in-range entries permutes the list. -/
theorem swapAdj_perm : ∀ (l : List Nat) (i : Nat), i + 1 < l.length →
    (swapAdj l i).Perm l := by
  intro l
  induction l with
  | nil => intro i h; simp at h
  | cons a t ih =>
    intro i h
    cases i with
    | zero =>
      rcases t with _ | ⟨b, t'⟩
      · simp at h
      · show ((((a :: b :: t').set 0 ((a :: b :: t').getD 1 0)).set 1
          ((a :: b :: t').getD 0 0)).Perm (a :: b :: t'))
        simp only [List.getD, List.getElem?_cons_zero, List.getElem?_cons_succ,
          Option.getD_some, List.set_cons_zero, List.set_cons_succ]
        exact List.Perm.swap a b t'
    | succ k =>
      have hk : k + 1 < t.length := by simpa using h
      show ((((a :: t).set (k + 1) ((a :: t).getD (k + 2) 0)).set (k + 2)
        ((a :: t).getD (k + 1) 0)).Perm (a :: t))
      simp only [List.getD, List.getElem?_cons_succ, List.set_cons_succ]
      exact (ih k hk).cons a

/-- `mutate` preserves the structural invariant. -/
theorem mutate_WF (trig : ℚ → ℚ × ℚ) (cfg : GAConfig) (bb : Bounds)
    (parts : List Part) (n : Nat) (ind : Individual)
    (swapCoin rotCoin : Nat → ℚ) (shuf : Nat → List ℚ) (h : WF n ind) :
    WF n (mutate trig cfg bb parts ind swapCoin rotCoin shuf) := by
  rcases h with ⟨hp, hr, hperm⟩
  unfold mutate
  have hinv : ∀ (st : List Nat × List ℚ),
      (st.1.Perm ind.placement ∧ st.2.length = ind.rotation.length) →
      ∀ i ∈ List.range ind.placement.length,
        ((mutateStep trig cfg bb parts swapCoin rotCoin shuf st i).1.Perm
            ind.placement ∧
          (mutateStep trig cfg bb parts swapCoin rotCoin shuf st i).2.length
            = ind.rotation.length) := by
    intro st hst i _
    unfold mutateStep
    constructor
    · by_cases hc : swapCoin i < (cfg.mutation_rate : ℚ) * (1 / 100)
      · simp only [if_pos hc]
        by_cases hb2 : i + 1 < st.1.length
        · simp only [if_pos hb2]
          exact (swapAdj_perm st.1 i hb2).trans hst.1
        · simp only [if_neg hb2]
          exact hst.1
      · simp only [if_neg hc]
        exact hst.1
    · by_cases hc : rotCoin i < (cfg.mutation_rate : ℚ) * (1 / 100)
      · simp only [if_pos hc, List.length_set]
        exact hst.2
      · simp only [if_neg hc]
        exact hst.2
  have hfold : ((List.range ind.placement.length).foldl
      (mutateStep trig cfg bb parts swapCoin rotCoin shuf)
      (ind.placement, ind.rotation)).1.Perm ind.placement ∧
      ((List.range ind.placement.length).foldl
        (mutateStep trig cfg bb parts swapCoin rotCoin shuf)
        (ind.placement, ind.rotation)).2.length = ind.rotation.length := by
    exact List.foldlRecOn
      (motive := fun st => st.1.Perm ind.placement ∧
        st.2.length = ind.rotation.length)
      (List.range ind.placement.length)
      (mutateStep trig cfg bb parts swapCoin rotCoin shuf)
      (ind.placement, ind.rotation) ⟨List.Perm.refl _, rfl⟩ hinv
  show WF n ⟨((List.range ind.placement.length).foldl
      (mutateStep trig cfg bb parts swapCoin rotCoin shuf)
      (ind.placement, ind.rotation)).1,
    ((List.range ind.placement.length).foldl
      (mutateStep trig cfg bb parts swapCoin rotCoin shuf)
      (ind.placement, ind.rotation)).2, (f64MAX : ℚ)⟩
  refine ⟨?_, ?_, ?_⟩
  · exact (hfold.1.length_eq).trans hp
  · exact hfold.2.trans hr
  · exact hfold.1.trans hperm

/-- Unfolding `mateFill` one source pair at a time. -/
theorem mateFill_cons (pr : Nat × ℚ) (rest : List (Nat × ℚ))
    (acc : List Nat × List ℚ) :
    mateFill (pr :: rest) acc
      = if pr.1 ∈ acc.1 then mateFill rest acc
        else mateFill rest (acc.1 ++ [pr.1], acc.2 ++ [pr.2]) := by
  unfold mateFill
  rw [List.foldl_cons]
  by_cases hc : pr.1 ∈ acc.1
  · rw [if_pos hc, if_pos hc]
  · rw [if_neg hc, if_neg hc]

/-- `mateFill` keeps the gene and angle vectors the same length. -/
theorem mateFill_length : ∀ (src : List (Nat × ℚ)) (acc : List Nat × List ℚ),
    acc.1.length = acc.2.length →
    (mateFill src acc).1.length = (mateFill src acc).2.length := by
  intro src
  induction src with
  | nil => intro acc h; exact h
  | cons pr rest ih =>
    intro acc h
    rw [mateFill_cons]
    by_cases hc : pr.1 ∈ acc.1
    · rw [if_pos hc]
      exact ih acc h
    · rw [if_neg hc]
      exact ih _ (by simp [h])

/-- `mateFill` keeps the gene vector duplicate-free. -/
theorem mateFill_nodup : ∀ (src : List (Nat × ℚ)) (acc : List Nat × List ℚ),
    acc.1.Nodup → (mateFill src acc).1.Nodup := by
  intro src
  induction src with
  | nil => intro acc h; exact h
  | cons pr rest ih =>
    intro acc h
    rw [mateFill_cons]
    by_cases hc : pr.1 ∈ acc.1
    · rw [if_pos hc]
      exact ih acc h
    · rw [if_neg hc]
      refine ih _ ?_
      show (acc.1 ++ [pr.1]).Nodup
      simp only [List.nodup_append, List.nodup_cons, List.nodup_nil]
      exact ⟨h, by simp, by simpa using hc⟩

/-- Membership in the gene vector produced by `mateFill`. -/
theorem mateFill_mem : ∀ (src : List (Nat × ℚ)) (acc : List Nat × List ℚ) (x : Nat),
    (x ∈ (mateFill src acc).1 ↔ x ∈ acc.1 ∨ x ∈ src.map Prod.fst) := by
  intro src
  induction src with
  | nil => intro acc x; simp [mateFill]
  | cons pr rest ih =>
    intro acc x
    rw [mateFill_cons]
    by_cases hc : pr.1 ∈ acc.1
    · rw [if_pos hc, ih]
      simp only [List.map_cons, List.mem_cons]
      constructor
      · rintro (h | h)
        · exact Or.inl h
        · exact Or.inr (Or.inr h)
      · rintro (h | rfl | h)
        · exact Or.inl h
        · exact Or.inl hc
        · exact Or.inr h
    · rw [if_neg hc, ih]
      simp only [List.mem_append, List.mem_singleton, List.map_cons, List.mem_cons]
      tauto

/-- `mate` produces two structurally well-formed children from well-formed
parents. -/
theorem mate_WF (n : Nat) (male female : Individual) (cutFrac : ℚ)
    (hm : WF n male) (hf : WF n female) :
    WF n (mate male female cutFrac).1 ∧ WF n (mate male female cutFrac).2 := by
  rcases hm with ⟨hmp, hmr, hmperm⟩
  rcases hf with ⟨hfp, hfr, hfperm⟩
  have main : ∀ (p1 r1 p2 r2 : List Nat × List ℚ → Prop), True := fun _ _ _ _ => trivial
  clear main
  have hchild : ∀ (A B : Individual), A.placement.length = n →
      A.rotation.length = n → A.placement.Perm (List.range n) →
      B.placement.length = n → B.rotation.length = n →
      B.placement.Perm (List.range n) → ∀ cut : Nat,
      WF n ⟨(mateFill (B.placement.zip B.rotation)
          (A.placement.take cut, A.rotation.take cut)).1,
        (mateFill (B.placement.zip B.rotation)
          (A.placement.take cut, A.rotation.take cut)).2, (f64MAX : ℚ)⟩ := by
    intro A B hAp hAr hAperm hBp hBr hBperm cut
    have hAnodup : A.placement.Nodup :=
      hAperm.nodup_iff.mpr (List.nodup_range n)
    have hBnodup : B.placement.Nodup :=
      hBperm.nodup_iff.mpr (List.nodup_range n)
    have hprefix_nodup : (A.placement.take cut).Nodup :=
      (List.take_sublist cut A.placement).nodup hAnodup
    have hzipfst : (B.placement.zip B.rotation).map Prod.fst = B.placement :=
      List.map_fst_zip _ _ (by rw [hBp, hBr])
    have hmem : ∀ x, x ∈ (mateFill (B.placement.zip B.rotation)
        (A.placement.take cut, A.rotation.take cut)).1 ↔ x ∈ List.range n := by
      intro x
      rw [mateFill_mem, hzipfst]
      constructor
      · rintro (h | h)
        · exact hAperm.mem_iff.mp (List.mem_of_mem_take h)
        · exact hBperm.mem_iff.mp h
      · intro h
        exact Or.inr (hBperm.mem_iff.mpr h)
    have hnodup : (mateFill (B.placement.zip B.rotation)
        (A.placement.take cut, A.rotation.take cut)).1.Nodup :=
      mateFill_nodup _ _ hprefix_nodup
    have hperm : (mateFill (B.placement.zip B.rotation)
        (A.placement.take cut, A.rotation.take cut)).1.Perm (List.range n) := by
      apply List.perm_of_nodup_nodup_toFinset_eq hnodup (List.nodup_range n)
      ext x
      simp only [List.mem_toFinset]
      exact hmem x
    have hlen2 : (mateFill (B.placement.zip B.rotation)
        (A.placement.take cut, A.rotation.take cut)).1.length
        = (mateFill (B.placement.zip B.rotation)
          (A.placement.take cut, A.rotation.take cut)).2.length := by
      apply mateFill_length
      simp [hAp, hAr]
    refine ⟨hperm.length_eq.trans (List.length_range n), ?_, hperm⟩
    rw [← hlen2]
    exact hperm.length_eq.trans (List.length_range n)
  constructor
  · exact hchild male female hmp hmr hmperm hfp hfr hfperm _
  · exact hchild female male hfp hfr hfperm hmp hmr hmperm _

/-- The selected parent index is always within the population. -/
theorem rwi_lt (popLen : Nat) (exclude : Option Nat) (r : ℚ)
    (h : 1 ≤ popLen) : random_weighted_index popLen exclude r < popLen := by
  by_cases hne : rwiCandidates popLen exclude = []
  · simp only [random_weighted_index, hne, rwiGo]
    simpa using h
  · have hm := rwi_mem popLen exclude r hne
    have := List.mem_filter.mp hm
    exact List.mem_range.mp this.1

/-- `genFill` adds exactly `remaining` individuals. -/
theorem genFill_length (trig : ℚ → ℚ × ℚ) (cfg : GAConfig) (bb : Bounds)
    (parts : List Part) (O : GenOracle) (sorted : List Individual) (n : Nat) :
    ∀ rem iter acc, (genFill trig cfg bb parts O sorted n iter rem acc).length
      = acc.length + rem := by
  intro rem
  induction rem using Nat.strong_induction_on with
  | _ rem ih =>
    match rem with
    | 0 => intro iter acc; simp [genFill]
    | 1 => intro iter acc; simp [genFill]
    | r + 2 =>
      intro iter acc
      simp only [genFill]
      rw [ih r (by omega)]
      simp only [List.length_append, List.length_cons, List.length_nil]
      omega

/-- `genFill` only adds structurally well-formed individuals. -/
theorem genFill_WF (trig : ℚ → ℚ × ℚ) (cfg : GAConfig) (bb : Bounds)
    (parts : List Part) (O : GenOracle) (sorted : List Individual)
    (n np : Nat) (hn : 1 ≤ n) (hlen : sorted.length = n)
    (hsorted : ∀ ind ∈ sorted, WF np ind) :
    ∀ rem iter acc, (∀ ind ∈ acc, WF np ind) →
      ∀ ind ∈ genFill trig cfg bb parts O sorted n iter rem acc, WF np ind := by
  have hsel : ∀ (ex : Option Nat) (r : ℚ),
      WF np (sorted.getD (random_weighted_index n ex r) defaultIndividual) := by
    intro ex r
    have hlt : random_weighted_index n ex r < sorted.length := by
      rw [hlen]; exact rwi_lt n ex r hn
    rw [List.getD_eq_getElem _ _ hlt]
    exact hsorted _ (List.getElem_mem hlt)
  intro rem
  induction rem using Nat.strong_induction_on with
  | _ rem ih =>
    match rem with
    | 0 => intro iter acc hacc ind hind; exact hacc ind hind
    | 1 =>
      intro iter acc hacc ind hind
      simp only [genFill] at hind
      rcases List.mem_append.mp hind with h | h
      · exact hacc ind h
      · rcases List.mem_singleton.mp h with rfl
        exact mutate_WF _ _ _ _ _ _ _ _ _
          ((mate_WF np _ _ _ (hsel none _) (hsel _ _)).1)
    | r + 2 =>
      intro iter acc hacc ind hind
      simp only [genFill] at hind
      refine ih r (by omega) (iter + 1) _ ?_ ind hind
      intro ind' hind'
      rcases List.mem_append.mp hind' with h | h
      · exact hacc ind' h
      · rcases List.mem_cons.mp h with rfl | h'
        · exact mutate_WF _ _ _ _ _ _ _ _ _
            ((mate_WF np _ _ _ (hsel none _) (hsel _ _)).1)
        · rcases List.mem_singleton.mp h' with rfl
          exact mutate_WF _ _ _ _ _ _ _ _ _
            ((mate_WF np _ _ _ (hsel none _) (hsel _ _)).2)

/-- One reproduction step preserves the structural invariant of every
individual. -/
theorem generation_WF (trig : ℚ → ℚ × ℚ) (cfg : GAConfig) (bb : Bounds)
    (parts : List Part) (O : GenOracle) (np : Nat) (pop : List Individual)
    (hne : pop ≠ []) (hpop : ∀ ind ∈ pop, WF np ind) :
    ∀ ind ∈ generationStep trig cfg bb parts O pop, WF np ind := by
  have hsorted : ∀ ind ∈ sortPop pop, WF np ind := by
    intro ind hind
    exact hpop ind (List.mem_mergeSort.mp hind)
  have hslen : (sortPop pop).length = pop.length := by
    unfold sortPop
    exact List.length_mergeSort ..
  have hn : 1 ≤ pop.length := List.length_pos.mpr hne
  have hhead : WF np ((sortPop pop).headD defaultIndividual) := by
    rcases hs : sortPop pop with _ | ⟨hd, tl⟩
    · have := hslen
      rw [hs] at this
      simp at this
      omega
    · exact hsorted hd (hs ▸ List.mem_cons_self _ _)
  unfold generationStep
  exact genFill_WF trig cfg bb parts O (sortPop pop) pop.length np hn hslen
    hsorted (pop.length - 1) 0 [(sortPop pop).headD defaultIndividual]
    (by intro ind hind; rcases List.mem_singleton.mp hind with rfl; exact hhead)

/-- A generation step does not change the population size. -/
theorem generation_length (trig : ℚ → ℚ × ℚ) (cfg : GAConfig) (bb : Bounds)
    (parts : List Part) (O : GenOracle) (pop : List Individual) (hne : pop ≠ []) :
    (generationStep trig cfg bb parts O pop).length = pop.length := by
  unfold generationStep
  rw [genFill_length]
  have := List.length_pos.mpr hne
  simp only [List.length_cons, List.length_nil]
  omega

/-- Re-evaluation touches only fitness. -/
theorem evalPop_WF (bk : ClipBackend) (trig : ℚ → ℚ × ℚ) (parts : List Part)
    (bb : Bounds) (cfg : GAConfig) (np : Nat) (pop : List Individual)
    (hpop : ∀ ind ∈ pop, WF np ind) :
    ∀ ind ∈ evalPop bk trig parts bb cfg pop, WF np ind := by
  intro ind hind
  rcases List.mem_map.mp hind with ⟨ind₀, hind₀, rfl⟩
  rcases hpop ind₀ hind₀ with ⟨h1, h2, h3⟩
  exact ⟨h1, h2, h3⟩

/-- **C5.**  Every individual ever held in the population — the base
individual of `GeneticAlgorithm::new`, its `population_size − 1` mutations,
and every `mate`-then-`mutate` child of any generation, re-evaluated or not
— has `len(placement) = len(rotation) = number_of_parts` with `placement` a
permutation of `0..number_of_parts`. -/
theorem individuals_wf (trig : ℚ → ℚ × ℚ) (cfg : GAConfig) (parts : List Part)
    (bin : Polygon) (O : InitOracle) (pop : List Individual)
    (hinit : newPopulation trig cfg parts bin O = some pop) :
    (∀ ind ∈ pop, WF parts.length ind) ∧
    (∀ (bb : Bounds) (GO : GenOracle) (pop' : List Individual), pop' ≠ [] →
      (∀ ind ∈ pop', WF parts.length ind) →
      ∀ ind ∈ generationStep trig cfg bb parts GO pop', WF parts.length ind) ∧
    (∀ (bk : ClipBackend) (bb : Bounds) (GO : Nat → GenOracle)
      (gens : Nat) (pop' : List Individual), pop' ≠ [] →
      (∀ ind ∈ pop', WF parts.length ind) →
      ∀ ind ∈ evolve bk trig parts bb cfg GO pop' gens, WF parts.length ind) := by
  refine ⟨?_, ?_, ?_⟩
  · unfold newPopulation at hinit
    rcases hb : get_polygon_bounds bin.points with _ | bb
    · rw [hb] at hinit; cases hinit
    · rw [hb] at hinit
      injection hinit with hinit
      intro ind hind
      rw [← hinit] at hind
      have hbase : WF parts.length
          (⟨List.range parts.length,
            (List.range parts.length).map (fun i =>
              random_angle trig cfg bb (parts.getD i defaultPart) (O.baseShuf i)),
            (f64MAX : ℚ)⟩ : Individual) := by
        refine ⟨List.length_range _, ?_, List.Perm.refl _⟩
        simp
      rcases List.mem_cons.mp hind with rfl | hmut
      · exact hbase
      · rcases List.mem_map.mp hmut with ⟨k, _, rfl⟩
        exact mutate_WF _ _ _ _ _ _ _ _ _ hbase
  · intro bb GO pop' hne hpop
    exact generation_WF trig cfg bb parts GO parts.length pop' hne hpop
  · intro bk bb GO gens pop' hne hpop
    unfold evolve
    have hmain : ∀ gl : List Nat, ∀ p : List Individual, p ≠ [] →
        (∀ ind ∈ p, WF parts.length ind) →
        (∀ ind ∈ gl.foldl (fun p g => generationStep trig cfg bb parts (GO g)
            (evalPop bk trig parts bb cfg p)) p, WF parts.length ind) ∧
        gl.foldl (fun p g => generationStep trig cfg bb parts (GO g)
            (evalPop bk trig parts bb cfg p)) p ≠ [] := by
      intro gl
      induction gl with
      | nil => intro p hne' hp; exact ⟨hp, hne'⟩
      | cons g rest ih =>
        intro p hne' hp
        simp only [List.foldl_cons]
        have hev : ∀ ind ∈ evalPop bk trig parts bb cfg p, WF parts.length ind :=
          evalPop_WF bk trig parts bb cfg parts.length p hp
        have hevne : evalPop bk trig parts bb cfg p ≠ [] := by
          unfold evalPop
          intro hcon
          exact hne' (List.map_eq_nil_iff.mp hcon)
        have hgen := generation_WF trig cfg bb parts (GO g) parts.length
          (evalPop bk trig parts bb cfg p) hevne hev
        have hgenne : generationStep trig cfg bb parts (GO g)
            (evalPop bk trig parts bb cfg p) ≠ [] := by
          intro hcon
          have hl := generation_length trig cfg bb parts (GO g)
            (evalPop bk trig parts bb cfg p) hevne
          rw [hcon] at hl
          have : evalPop bk trig parts bb cfg p = [] :=
            List.length_eq_zero.mp hl.symm
          exact hevne this
        exact ih _ hgenne hgen
    have h := hmain (List.range gens) pop' hne hpop
    exact evalPop_WF bk trig parts bb cfg parts.length _ h.1

/-- Witness for C5: the concrete two-individual initial population of the
counterexample run is well-formed, as is the population after one
generation. -/
theorem individuals_wf_witness :
    (∀ ind ∈ cexInitPop, WF 1 ind) ∧
    (∀ ind ∈ cexEvolved, WF 1 ind) := by
  have h := individuals_wf rightAngleTrig cexCfg [cexPart] cexBinPoly
    cexInitOracle cexInitPop (by with_unfolding_all rfl)
  refine ⟨h.1, ?_⟩
  have h2 := h.2.2 inertBackend ⟨0, 0, 10, 10⟩ cexGenOracle 1 cexInitPop
    (by with_unfolding_all decide) h.1
  exact h2

/-! ## C1 — order of the population returned by evolve -/

/-- **C1, counterexample.**  A concrete single-part run (6×2 part, 10×10
bin, population 2, one generation): `evolve` re-evaluates *after* the last
reproduction, so the freshly mutated child at index 1 (rotated to 90°,
fitness `51/50`) beats the elite at index 0 (0°, fitness `53/50`) — the
final population is not ordered by fitness. -/
theorem evolve_not_sorted_cex :
    cexEvolved.length = 2 ∧
    (cexEvolved.getD 1 defaultIndividual).fitness
      < (cexEvolved.getD 0 defaultIndividual).fitness := by
  with_unfolding_all decide

/-- `genFill` only ever appends to its accumulator. -/
theorem genFill_eq_append (trig : ℚ → ℚ × ℚ) (cfg : GAConfig) (bb : Bounds)
    (parts : List Part) (O : GenOracle) (sorted : List Individual) (n : Nat) :
    ∀ rem iter acc, genFill trig cfg bb parts O sorted n iter rem acc
      = acc ++ genFill trig cfg bb parts O sorted n iter rem [] := by
  intro rem
  induction rem using Nat.strong_induction_on with
  | _ rem ih =>
    match rem with
    | 0 => intro iter acc; simp [genFill]
    | 1 => intro iter acc; simp [genFill]
    | r + 2 =>
      intro iter acc
      simp only [genFill]
      rw [ih r (by omega), ih r (by omega) (iter + 1) ([] ++ _)]
      simp

/-- The comparator used by `sortPop` is transitive. -/
theorem fitLe_trans : ∀ a b c : Individual,
    decide (a.fitness ≤ b.fitness) → decide (b.fitness ≤ c.fitness) →
    decide (a.fitness ≤ c.fitness) := by
  intro a b c hab hbc
  simp only [decide_eq_true_eq] at *
  exact le_trans hab hbc

/-- The comparator used by `sortPop` is total. -/
theorem fitLe_total : ∀ a b : Individual,
    decide (a.fitness ≤ b.fitness) || decide (b.fitness ≤ a.fitness) := by
  intro a b
  rcases le_total a.fitness b.fitness with h | h <;> simp [h]

/-- `sortPop` sorts ascending by fitness. -/
theorem sortPop_pairwise (pop : List Individual) :
    (sortPop pop).Pairwise (fun a b => a.fitness ≤ b.fitness) := by
  have h := @List.sorted_mergeSort Individual
    (fun a b : Individual => decide (a.fitness ≤ b.fitness))
    fitLe_trans fitLe_total pop
  unfold sortPop
  exact h.imp (by intro a b hab; simpa using hab)

/-- **C1, amended.**  After the fitness sort at the head of each
`generation` step, `population[0]` has minimal fitness and survives as the
elite at index 0 of the next population; the final population returned by
`evolve` (re-evaluated *after* the last reproduction) need not be ordered —
a mutated child can out-score the copied elite (see the counterexample). -/
theorem generation_elite_sorted (trig : ℚ → ℚ × ℚ) (cfg : GAConfig)
    (bb : Bounds) (parts : List Part) (O : GenOracle) (pop : List Individual) :
    (generationStep trig cfg bb parts O pop).headD defaultIndividual
      = (sortPop pop).headD defaultIndividual ∧
    (∀ k, k < (sortPop pop).length →
      ((sortPop pop).getD 0 defaultIndividual).fitness
        ≤ ((sortPop pop).getD k defaultIndividual).fitness) ∧
    (∀ ind ∈ pop,
      ((sortPop pop).headD defaultIndividual).fitness ≤ ind.fitness) := by
  refine ⟨?_, ?_, ?_⟩
  · unfold generationStep
    rw [genFill_eq_append]
    rfl
  · intro k hk
    rcases Nat.eq_zero_or_pos k with rfl | hkpos
    · exact le_refl _
    · have h0 : 0 < (sortPop pop).length := lt_trans hkpos hk
      rw [List.getD_eq_getElem _ _ h0, List.getD_eq_getElem _ _ hk]
      exact (List.pairwise_iff_getElem.mp (sortPop_pairwise pop)) 0 k h0 hk hkpos
  · intro ind hind
    have hmem : ind ∈ sortPop pop := by
      unfold sortPop
      rw [List.mem_mergeSort]
      exact hind
    rcases hs : sortPop pop with _ | ⟨hd, tl⟩
    · rw [hs] at hmem; cases hmem
    · rw [hs] at hmem
      rcases List.mem_cons.mp hmem with rfl | htl
      · simp
      · have hp := sortPop_pairwise pop
        rw [hs] at hp
        exact (List.pairwise_cons.mp hp).1 ind htl

/-- Witness for the amended C1 on a concrete two-individual population. -/
theorem generation_elite_sorted_witness :
    ((sortPop [⟨[], [], (2 : ℚ)⟩, ⟨[], [], (1 : ℚ)⟩]).getD 0 defaultIndividual).fitness
      ≤ ((sortPop [⟨[], [], (2 : ℚ)⟩, ⟨[], [], (1 : ℚ)⟩]).getD 1 defaultIndividual).fitness ∧
    ((sortPop [⟨[], [], (2 : ℚ)⟩, ⟨[], [], (1 : ℚ)⟩]).headD defaultIndividual).fitness
      ≤ (⟨[], [], (2 : ℚ)⟩ : Individual).fitness := by
  constructor
  · exact (generation_elite_sorted rightAngleTrig cexCfg ⟨0, 0, 10, 10⟩ []
      (cexGenOracle 0) [⟨[], [], (2 : ℚ)⟩, ⟨[], [], (1 : ℚ)⟩]).2.1 1
      (by with_unfolding_all decide)
  · exact (generation_elite_sorted rightAngleTrig cexCfg ⟨0, 0, 10, 10⟩ []
      (cexGenOracle 0) [⟨[], [], (2 : ℚ)⟩, ⟨[], [], (1 : ℚ)⟩]).2.2
      ⟨[], [], (2 : ℚ)⟩ (by simp)

/-! ## C4 — weighted random selection -/

/-- `random_weighted_index` on a population of three, no exclusion: explicit
interval form. -/
theorem rwi3_eq (r : ℚ) :
    random_weighted_index 3 none r =
      if r > 0 ∧ r < 1 / 3 then 0
      else if r > 1 / 3 ∧ r < 1 then 1
      else if r > 1 ∧ r < 13 / 9 then 2
      else 0 := by
  have hidxs : rwiCandidates 3 none = [0, 1, 2] := by with_unfolding_all decide
  simp only [random_weighted_index, hidxs]
  rw [rwiGo, rwiGo, rwiGo, rwiGo]
  norm_num
  split_ifs <;> rfl

/-- **C4, counterexample.**  On the population of size 3, sampling the
uniform draw on the 30-point grid `i/30`: index 1 is returned 19 times and
index 0 only 11 times — index 0 (the fittest) does *not* have the highest
selection probability; the step widths `2·weight·(n−pos)/n` make index 1 the
most likely. -/
theorem rwi_index0_not_most_likely_cex :
    ((List.range 30).filter
        (fun i => random_weighted_index 3 none ((i : ℚ) / 30) = 1)).length
      > ((List.range 30).filter
        (fun i => random_weighted_index 3 none ((i : ℚ) / 30) = 0)).length := by
  with_unfolding_all decide

/-- **C4, amended.**  The excluded index (the first parent, during the
second-parent draw) is never returned when the population has at least two
individuals; but the step distribution does not make index 0 most likely:
for a population of 3, the draw returns index 1 exactly on the sub-interval
`(1/3, 1)` of `[0, 1)` (measure `2/3`), index 0 only on `[0, 1/3]`
(measure `≤ 1/3`), and index 2 never. -/
theorem rwi_exclude_and_distribution :
    (∀ (n e : Nat) (r : ℚ), 2 ≤ n →
      random_weighted_index n (some e) r ≠ e) ∧
    (∀ r : ℚ, 0 ≤ r → r < 1 →
      (random_weighted_index 3 none r = 1 ↔ 1 / 3 < r) ∧
      (random_weighted_index 3 none r = 0 ↔ r ≤ 1 / 3) ∧
      random_weighted_index 3 none r ≠ 2) := by
  constructor
  · intro n e r hn
    have hmemiff : ∀ v, v ∈ rwiCandidates n (some e) ↔ v < n ∧ v ≠ e := by
      intro v
      simp [rwiCandidates, List.mem_filter, List.mem_range]
    have hne : rwiCandidates n (some e) ≠ [] := by
      intro hemp
      by_cases he0 : e = 0
      · have : (1 : Nat) ∈ rwiCandidates n (some e) :=
          (hmemiff 1).mpr ⟨by omega, by omega⟩
        rw [hemp] at this; cases this
      · have : (0 : Nat) ∈ rwiCandidates n (some e) :=
          (hmemiff 0).mpr ⟨by omega, fun h => he0 h.symm⟩
        rw [hemp] at this; cases this
    have hm := rwi_mem n (some e) r hne
    intro hcontra
    rw [hcontra] at hm
    exact ((hmemiff e).mp hm).2 rfl
  · intro r h0 h1
    rw [rwi3_eq r]
    by_cases c1 : r > 0 ∧ r < 1 / 3
    · rw [if_pos c1]
      refine ⟨⟨fun h => absurd h (by omega), fun h => absurd h (by linarith [c1.2])⟩,
        ⟨fun _ => le_of_lt c1.2, fun _ => rfl⟩, by norm_num⟩
    · by_cases c2 : r > 1 / 3 ∧ r < 1
      · rw [if_neg c1, if_pos c2]
        refine ⟨⟨fun _ => c2.1, fun _ => rfl⟩,
          ⟨fun h => absurd h (by omega), fun h => absurd h (by linarith [c2.1])⟩,
          by norm_num⟩
      · have hr3 : ¬(r > 1 ∧ r < 13 / 9) := fun hc => by linarith [hc.1]
        have hrle : r ≤ 1 / 3 := by
          rcases not_and_or.mp c1 with ha | hb
          · push_neg at ha; linarith
          · push_neg at hb
            rcases not_and_or.mp c2 with hc | hd
            · push_neg at hc; exact hc
            · push_neg at hd; linarith
        rw [if_neg c1, if_neg c2, if_neg hr3]
        refine ⟨⟨fun h => absurd h (by omega), fun h => absurd h (by linarith)⟩,
          ⟨fun _ => hrle, fun _ => rfl⟩, by norm_num⟩

/-- Witness for the amended C4: with population 3, excluding index 0 the
draw `r = 1/4` never yields 0, and without exclusion `r = 1/2` yields
index 1. -/
theorem rwi_exclude_and_distribution_witness :
    random_weighted_index 3 (some 0) (1 / 4) ≠ 0 ∧
    random_weighted_index 3 none (1 / 2) = 1 := by
  constructor
  · exact rwi_exclude_and_distribution.1 3 0 (1 / 4) (by norm_num)
  · exact ((rwi_exclude_and_distribution.2 (1 / 2) (by norm_num)
      (by norm_num)).1).mpr (by norm_num)

/-! ## C6 — the Minkowski edge-quad construction -/

/-- **C6, counterexample.**  With a clipping backend whose union yields two
rings of `polygon_area` −8 and −2 (standard shoelace areas 8 and 2), the
source's `min_by(signed_area)` — the `geo` crate's counter-clockwise-
positive convention — picks the *small* ring, while "smallest (most
negative) signed area under the program's winding convention" (minimal
`polygon_area`) picks the big one: the claim's selection rule is not the
code's. -/
theorem minkowski_convention_cex :
    minkowski_difference_clip twoRingBackend cexTriangle cexTriangle
      = [⟨0, 0⟩, ⟨2, 0⟩, ⟨0, 2⟩] ∧
    specMinkowskiProgramConvention twoRingBackend cexTriangle cexTriangle
      = [⟨0, 0⟩, ⟨4, 0⟩, ⟨0, 4⟩] ∧
    minkowski_difference_clip twoRingBackend cexTriangle cexTriangle
      ≠ specMinkowskiProgramConvention twoRingBackend cexTriangle cexTriangle := by
  with_unfolding_all decide

/-- Matrix access in the code's difference matrix equals direct indexing. -/
theorem sumGet_eq_sMatrix (a b : List Point) (i j : Nat)
    (hi : i < b.length) (hj : j < a.length) :
    sumGet (b.map (fun pb => a.map (fun pa =>
        (⟨pa.x - pb.x, pa.y - pb.y⟩ : Point)))) i j
      = sMatrixEntry a b i j := by
  unfold sumGet sMatrixEntry
  have h1 : (b.map (fun pb => a.map (fun pa =>
      (⟨pa.x - pb.x, pa.y - pb.y⟩ : Point)))).getD i []
      = a.map (fun pa => (⟨pa.x - b[i].x, pa.y - b[i].y⟩ : Point)) := by
    rw [List.getD_eq_getElem _ _ (by simpa using hi), List.getElem_map]
  rw [h1]
  rw [List.getD_eq_getElem _ _ (by simpa using hj), List.getElem_map]
  rw [List.getD_eq_getElem _ _ hj, List.getD_eq_getElem _ _ hi]

/-- The code's quad family is exactly the spec's quad family. -/
theorem minkQuads_eq_spec (a b : List Point) :
    minkQuads a b = specQuadList a b := by
  unfold minkQuads specQuadList
  apply List.flatMap_congr
  intro i hi
  apply List.map_congr_left
  intro j hj
  have hb : 0 < b.length := Nat.pos_of_ne_zero (by
    intro h0; rw [h0] at hi; cases hi)
  have ha : 0 < a.length := Nat.pos_of_ne_zero (by
    intro h0; rw [h0] at hj; cases hj)
  have h1 : i % b.length < b.length := Nat.mod_lt _ hb
  have h2 : (i + 1) % b.length < b.length := Nat.mod_lt _ hb
  have h3 : j % a.length < a.length := Nat.mod_lt _ ha
  have h4 : (j + 1) % a.length < a.length := Nat.mod_lt _ ha
  show (if polygon_area _ < 0 then _ else _) = specOrientedQuad a b i j
  unfold specOrientedQuad specQuad
  rw [sumGet_eq_sMatrix a b _ _ h1 h3, sumGet_eq_sMatrix a b _ _ h2 h3,
    sumGet_eq_sMatrix a b _ _ h2 h4, sumGet_eq_sMatrix a b _ _ h1 h4]

/-- **C6, amended.**  `minkowski_difference_clip` implements the spec's
edge-quad construction — `S[i][j] = a_j − b_i`, the `lb × la` quads with
modulo indices, reversal of negative-`signed_area` quads, union through the
clipping backend, translation of the chosen ring by `+b₀` — but the ring it
chooses minimizes the `geo` crate's standard (counter-clockwise-positive)
signed area, i.e. the *most positive* area under the program's
`polygon_area` winding convention, not the most negative one. -/
theorem minkowski_eq_spec_geo (bk : ClipBackend) (a b : List Point) :
    minkowski_difference_clip bk a b = specMinkowskiGeoConvention bk a b := by
  unfold minkowski_difference_clip specMinkowskiGeoConvention specQuadUnion
  rw [minkQuads_eq_spec]
  by_cases h : a = [] ∨ b = []
  · rw [if_pos h, if_pos h]
  · rw [if_neg h, if_neg h]
    cases hacc : quadUnionFold bk (specQuadList a b) with
    | none => simp [rustMinBy]
    | some mp => rfl

/-! ## C7 — the NFP cache -/

/-- **C7.**  `get_or_generate` uses the key
`(aId, bId, round(αA/ε), round(αB/ε))`; a hit returns the stored polygon and
leaves the cache untouched (whatever the polygon arguments); a miss computes
the Minkowski difference and prepends it; existing entries are never removed
or replaced (the cache is monotone); after any call the key maps to the
returned polygon, so a second call with the same ids and quantized angles
returns the same polygon. -/
theorem nfp_cache_spec (bk : ClipBackend) (c : NfpCache) (aId bId : Nat)
    (aAng bAng : ℚ) (A B : List Point) :
    c.keyOf aId bId aAng bAng
      = (aId, bId, rustRound (aAng / c.angle_precision),
         rustRound (bAng / c.angle_precision)) ∧
    (∀ v, assocLookup (c.keyOf aId bId aAng bAng) c.cache = some v →
      c.get_or_generate bk aId bId aAng bAng A B = (v, c)) ∧
    (assocLookup (c.keyOf aId bId aAng bAng) c.cache = none →
      (c.get_or_generate bk aId bId aAng bAng A B).1
          = minkowski_difference_clip bk A B ∧
      (c.get_or_generate bk aId bId aAng bAng A B).2.cache
          = (c.keyOf aId bId aAng bAng, minkowski_difference_clip bk A B)
            :: c.cache) ∧
    (∀ k v, assocLookup k c.cache = some v →
      assocLookup k (c.get_or_generate bk aId bId aAng bAng A B).2.cache = some v) ∧
    (c.get_or_generate bk aId bId aAng bAng A B).2.angle_precision
      = c.angle_precision ∧
    assocLookup (c.keyOf aId bId aAng bAng)
        (c.get_or_generate bk aId bId aAng bAng A B).2.cache
      = some (c.get_or_generate bk aId bId aAng bAng A B).1 ∧
    (∀ bk' A' B' aAng' bAng',
      (c.get_or_generate bk aId bId aAng bAng A B).2.keyOf aId bId aAng' bAng'
        = c.keyOf aId bId aAng bAng →
      ((c.get_or_generate bk aId bId aAng bAng A B).2.get_or_generate
          bk' aId bId aAng' bAng' A' B').1
        = (c.get_or_generate bk aId bId aAng bAng A B).1) := by
  have hkey : c.keyOf aId bId aAng bAng
      = (aId, bId, rustRound (aAng / c.angle_precision),
         rustRound (bAng / c.angle_precision)) := by
    show (aId, bId, rustRound (aAng * (1 / c.angle_precision)),
      rustRound (bAng * (1 / c.angle_precision))) = _
    rw [mul_one_div, mul_one_div]
  have heq : ∀ (c' : NfpCache) (bk' : ClipBackend) (aA' bA' : ℚ)
      (A' B' : List Point),
      c'.get_or_generate bk' aId bId aA' bA' A' B'
        = match assocLookup (c'.keyOf aId bId aA' bA') c'.cache with
          | some v => (v, c')
          | none => (minkowski_difference_clip bk' A' B',
              ⟨(c'.keyOf aId bId aA' bA', minkowski_difference_clip bk' A' B')
                :: c'.cache, c'.angle_precision⟩) :=
    fun _ _ _ _ _ _ => rfl
  cases h : assocLookup (c.keyOf aId bId aAng bAng) c.cache with
  | some v =>
    have hr : c.get_or_generate bk aId bId aAng bAng A B = (v, c) := by
      rw [heq, h]
    refine ⟨hkey, ?_, ?_, ?_, ?_, ?_, ?_⟩
    · intro w hw
      injection hw with hw'
      rw [← hw']
      exact hr
    · intro hn; cases hn
    · intro k w hw; rw [hr]; exact hw
    · rw [hr]
    · rw [hr]; exact h
    · intro bk' A' B' aA' bA' hk
      rw [hr] at hk ⊢
      rw [heq, hk, h]
  | none =>
    have hr : c.get_or_generate bk aId bId aAng bAng A B
        = (minkowski_difference_clip bk A B,
           ⟨(c.keyOf aId bId aAng bAng, minkowski_difference_clip bk A B)
             :: c.cache, c.angle_precision⟩) := by
      rw [heq, h]
    refine ⟨hkey, ?_, ?_, ?_, ?_, ?_, ?_⟩
    · intro w hw; cases hw
    · intro _; rw [hr]
      exact ⟨rfl, rfl⟩
    · intro k w hw; rw [hr]
      by_cases hek : c.keyOf aId bId aAng bAng = k
      · rw [← hek] at hw; rw [h] at hw; cases hw
      · simpa [assocLookup, hek] using hw
    · rw [hr]
    · rw [hr]; simp [assocLookup]
    · intro bk' A' B' aA' bA' hk
      rw [hr] at hk ⊢
      rw [heq, hk]
      simp [assocLookup]

/-- Witness for C7: a miss on the empty cache computes and stores the
Minkowski difference, and a repeat call returns the same polygon. -/
theorem nfp_cache_spec_witness :
    ((NfpCache.new (1 / 1000)).get_or_generate inertBackend 0 1 90 0
      cexTriangle cexTriangle).1
        = minkowski_difference_clip inertBackend cexTriangle cexTriangle ∧
    ((((NfpCache.new (1 / 1000)).get_or_generate inertBackend 0 1 90 0
        cexTriangle cexTriangle).2.get_or_generate inertBackend 0 1 90 0
        cexTriangle cexTriangle).1
      = ((NfpCache.new (1 / 1000)).get_or_generate inertBackend 0 1 90 0
        cexTriangle cexTriangle).1) := by
  have h := nfp_cache_spec inertBackend (NfpCache.new (1 / 1000)) 0 1 90 0
    cexTriangle cexTriangle
  exact ⟨(h.2.2.1 rfl).1, h.2.2.2.2.2.2 inertBackend cexTriangle cexTriangle 90 0 rfl⟩

/-! ## C2 — the fitness formula of evaluate_static -/

/-- The code's keep-test agrees with the spec's exceeds-test. -/
theorem placeable_eq_specKeep (trig : ℚ → ℚ × ℚ) (parts : List Part)
    (bb : Bounds) (g : Nat × ℚ) :
    placeableGene trig parts bb g = specKeepGene trig parts bb g := by
  unfold placeableGene specKeepGene
  cases hb : get_polygons_bounds (partRotatedAt trig parts g.1 g.2) with
  | none => rfl
  | some b =>
    show decide (b.width ≤ bb.width ∧ b.height ≤ bb.height)
      = !decide (b.width > bb.width ∨ b.height > bb.height)
    rw [← decide_not]
    apply decide_eq_decide.mpr
    constructor
    · intro h
      push_neg
      exact h
    · intro h
      push_neg at h
      exact h

/-- Dropping with the negated predicate counts the complement. -/
theorem filter_not_length {α : Type} (l : List α) (p : α → Bool) :
    (l.filter (fun x => !p x)).length = l.length - (l.filter p).length := by
  induction l with
  | nil => rfl
  | cons a t ih =>
    have hle := List.length_filter_le p t
    cases ha : p a <;> simp [List.filter_cons, ha, ih] <;> omega

/-- `binWidthMap` is the `upsertMax` fold over the bin/width pairs. -/
theorem binWidthMap_eq_fold (trig : ℚ → ℚ × ℚ) (parts : List Part)
    (bb : Bounds) (placed : List Placement) :
    binWidthMap trig parts bb placed
      = (placed.filterMap (placementBinWidth trig parts bb)).foldl
          (fun m e => upsertMax m e.1 e.2) [] := by
  suffices h : ∀ m, placed.foldl (fun m p =>
      match get_polygons_bounds (partRotatedAt trig parts p.idx p.angle) with
      | some b => upsertMax m (rustFloorToUsize (p.y / bb.height)) (p.x + b.width)
      | none => m) m
      = (placed.filterMap (placementBinWidth trig parts bb)).foldl
          (fun m e => upsertMax m e.1 e.2) m by
    exact h []
  induction placed with
  | nil => intro m; rfl
  | cons p rest ih =>
    intro m
    rw [List.foldl_cons, List.filterMap_cons]
    cases hb : get_polygons_bounds (partRotatedAt trig parts p.idx p.angle) with
    | none =>
      simp only [placementBinWidth, hb, Option.map_none']
      exact ih m
    | some b =>
      simp only [placementBinWidth, hb, Option.map_some', List.foldl_cons]
      exact ih _

/-- Lookup after a single `upsertMax`. -/
theorem assocLookup_upsertMax (m : List (Nat × ℚ)) (k' k : Nat) (w : ℚ) :
    assocLookup k (upsertMax m k' w)
      = if k' = k then
          (match assocLookup k m with
           | some v => some (if w > v then w else v)
           | none => some w)
        else assocLookup k m := by
  induction m with
  | nil =>
    by_cases h : k' = k
    · simp [upsertMax, assocLookup, h]
    · simp [upsertMax, assocLookup, h]
  | cons e rest ih =>
    rcases e with ⟨k'', v⟩
    by_cases h1 : k'' = k'
    · subst h1
      by_cases h2 : k'' = k
      · subst h2
        simp [upsertMax, assocLookup]
      · simp [upsertMax, assocLookup, h2]
    · by_cases h2 : k'' = k
      · subst h2
        have h3 : k' ≠ k'' := fun hc => h1 hc.symm
        simp [upsertMax, assocLookup, h1, h3, ih]
      · simp [upsertMax, assocLookup, h1, h2, ih]

/-- Keys after a single `upsertMax`. -/
theorem upsertMax_keys (m : List (Nat × ℚ)) (k : Nat) (w : ℚ) :
    (upsertMax m k w).map Prod.fst
      = if k ∈ m.map Prod.fst then m.map Prod.fst else m.map Prod.fst ++ [k] := by
  induction m with
  | nil => simp [upsertMax]
  | cons e rest ih =>
    rcases e with ⟨k'', v⟩
    by_cases h : k'' = k
    · subst h
      simp [upsertMax]
    · have h' : ¬(k = k'') := fun hc => h hc.symm
      by_cases hmem : k ∈ rest.map Prod.fst
      · simp [upsertMax, h, ih, hmem, h']
      · simp [upsertMax, h, ih, hmem, h']

/-- Lookup of the whole `upsertMax` fold: the incremental maximum of the
matching widths. -/
theorem foldl_upsertMax_lookup (L : List (Nat × ℚ)) :
    ∀ (m : List (Nat × ℚ)) (k : Nat),
      assocLookup k (L.foldl (fun m e => upsertMax m e.1 e.2) m)
        = combineMax (assocLookup k m) (valuesFor L k) := by
  induction L with
  | nil => intro m k; rfl
  | cons e rest ih =>
    intro m k
    rw [List.foldl_cons]
    by_cases hk : e.1 = k
    · have hv : valuesFor (e :: rest) k = e.2 :: valuesFor rest k := by
        simp [valuesFor, List.filter_cons, hk]
      rw [hv, ih, assocLookup_upsertMax, if_pos hk]
      show combineMax _ _ = combineMax _ _
      unfold combineMax
      rw [List.foldl_cons]
      cases assocLookup k m <;> rfl
    · have hv : valuesFor (e :: rest) k = valuesFor rest k := by
        simp [valuesFor, List.filter_cons, hk]
      rw [hv, ih, assocLookup_upsertMax, if_neg hk]

/-- Keys of the whole fold: membership matches the pair list. -/
theorem foldl_upsertMax_keys_mem (L : List (Nat × ℚ)) :
    ∀ (m : List (Nat × ℚ)) (k : Nat),
      (k ∈ (L.foldl (fun m e => upsertMax m e.1 e.2) m).map Prod.fst
        ↔ k ∈ m.map Prod.fst ∨ k ∈ L.map Prod.fst) := by
  induction L with
  | nil => intro m k; simp
  | cons e rest ih =>
    intro m k
    rw [List.foldl_cons, ih]
    rw [upsertMax_keys]
    by_cases hmem : e.1 ∈ m.map Prod.fst
    · rw [if_pos hmem]
      simp only [List.map_cons, List.mem_cons]
      constructor
      · rintro (h | h)
        · exact Or.inl h
        · exact Or.inr (Or.inr h)
      · rintro (h | rfl | h)
        · exact Or.inl h
        · exact Or.inl hmem
        · exact Or.inr h
    · rw [if_neg hmem]
      simp only [List.mem_append, List.mem_singleton, List.map_cons, List.mem_cons]
      tauto

/-- The fold keeps its keys duplicate-free. -/
theorem foldl_upsertMax_keys_nodup (L : List (Nat × ℚ)) :
    ∀ (m : List (Nat × ℚ)), (m.map Prod.fst).Nodup →
      ((L.foldl (fun m e => upsertMax m e.1 e.2) m).map Prod.fst).Nodup := by
  induction L with
  | nil => intro m h; exact h
  | cons e rest ih =>
    intro m h
    rw [List.foldl_cons]
    apply ih
    rw [upsertMax_keys]
    by_cases hmem : e.1 ∈ m.map Prod.fst
    · rw [if_pos hmem]; exact h
    · rw [if_neg hmem]
      simp only [List.nodup_append, List.nodup_cons, List.nodup_nil]
      exact ⟨h, by simp, by simpa using hmem⟩

/-- In an association list with duplicate-free keys, membership determines
lookup. -/
theorem assocLookup_of_mem (m : List (Nat × ℚ)) (k : Nat) (v : ℚ)
    (hnd : (m.map Prod.fst).Nodup) (hmem : (k, v) ∈ m) :
    assocLookup k m = some v := by
  induction m with
  | nil => cases hmem
  | cons e rest ih =>
    rcases List.mem_cons.mp hmem with rfl | hmem'
    · simp [assocLookup]
    · have hk : e.1 ≠ k := by
        intro hc
        have : k ∈ rest.map Prod.fst :=
          List.mem_map.mpr ⟨(k, v), hmem', rfl⟩
        rw [List.map_cons, List.nodup_cons] at hnd
        exact hnd.1 (hc ▸ this)
      rcases e with ⟨k'', v''⟩
      simp only [assocLookup, if_neg hk]
      exact ih (by rw [List.map_cons, List.nodup_cons] at hnd; exact hnd.2) hmem'

/-- `combineMax` from an existing maximum is the list fold of `max`. -/
theorem combineMax_some (l : List ℚ) : ∀ v : ℚ,
    combineMax (some v) l = some (l.foldl max v) := by
  induction l with
  | nil => intro v; rfl
  | cons w t ih =>
    intro v
    show combineMax (some (if w > v then w else v)) t = _
    rw [ih, List.foldl_cons]
    congr 1
    congr 1
    rcases lt_or_ge v w with h | h
    · rw [if_pos h, max_eq_right (le_of_lt h)]
    · rw [if_neg (not_lt.mpr h), max_eq_left h]

/-- `combineMax` from nothing is `List.max?`. -/
theorem combineMax_none (l : List ℚ) : combineMax none l = l.max? := by
  cases l with
  | nil => rfl
  | cons w t =>
    show combineMax (some w) t = _
    rw [combineMax_some, List.max?_cons']

/-- **C2.**  `evaluate_static` computes exactly the spec's fitness: genes
whose rotated AABB exceeds the bin in either dimension (or has no AABB) are
dropped and counted as `unplaceable`; an infinite layout height gives
fitness `+∞`; otherwise the fitness is `bins_used + Σ_{bins in use}
width_used/(bin_width·bin_height) + 2·unplaceable`, where a placement
belongs to bin `⌊P.y / bin_height⌋` and `width_used` is the maximum
`P.x + AABB.width` over that bin's placements. -/
theorem evaluate_matches_spec (bk : ClipBackend) (trig : ℚ → ℚ × ℚ)
    (ind : Individual) (parts : List Part) (bb : Bounds) (cfg : GAConfig) :
    evaluate_static bk trig ind parts bb cfg
      = specFitness bk trig ind parts bb cfg := by
  unfold evaluate_static specFitness prefilter
  simp only []
  have hfilter : (ind.placement.zip ind.rotation).filter
        (placeableGene trig parts bb)
      = (ind.placement.zip ind.rotation).filter (specKeepGene trig parts bb) :=
    List.filter_congr (fun g _ => by rw [placeable_eq_specKeep])
  rw [hfilter]
  have hunpl : ((ind.placement.zip ind.rotation).filter
        (fun g => !placeableGene trig parts bb g)).length
      = (ind.placement.zip ind.rotation).length
        - ((ind.placement.zip ind.rotation).filter
            (specKeepGene trig parts bb)).length := by
    rw [filter_not_length, hfilter]
  rw [hunpl]
  cases hl : (layout bk trig parts bb cfg
      ⟨((ind.placement.zip ind.rotation).filter
          (specKeepGene trig parts bb)).map (·.1),
        ((ind.placement.zip ind.rotation).filter
          (specKeepGene trig parts bb)).map (·.2),
        ((0 : ℚ) : WithTop ℚ)⟩).1 with
  | top => rw [if_pos rfl]
  | coe q =>
    rw [if_neg (WithTop.coe_ne_top)]
    set placed := (layout bk trig parts bb cfg
      ⟨((ind.placement.zip ind.rotation).filter
          (specKeepGene trig parts bb)).map (·.1),
        ((ind.placement.zip ind.rotation).filter
          (specKeepGene trig parts bb)).map (·.2),
        ((0 : ℚ) : WithTop ℚ)⟩).2 with hplaced
    set pairs := placed.filterMap (placementBinWidth trig parts bb) with hpairs
    set R := pairs.foldl (fun m e => upsertMax m e.1 e.2) [] with hR
    have hbw : binWidthMap trig parts bb placed = R := by
      rw [hR, hpairs]
      exact binWidthMap_eq_fold trig parts bb placed
    rw [hbw]
    have hndk : (R.map Prod.fst).Nodup := by
      rw [hR]
      exact foldl_upsertMax_keys_nodup pairs [] (by simp)
    have hkeys : ∀ k, k ∈ R.map Prod.fst ↔ k ∈ (pairs.map Prod.fst).dedup := by
      intro k
      rw [hR, foldl_upsertMax_keys_mem, List.mem_dedup]
      simp
    have hperm : (R.map Prod.fst).Perm ((pairs.map Prod.fst).dedup) := by
      apply List.perm_of_nodup_nodup_toFinset_eq hndk (List.nodup_dedup _)
      ext k
      simp only [List.mem_toFinset]
      exact hkeys k
    have hval : ∀ e ∈ R, e.2 = ((valuesFor pairs e.1).max?).getD 0 := by
      intro e he
      have hlk : assocLookup e.1 R = some e.2 := by
        apply assocLookup_of_mem R e.1 e.2 hndk
        rcases e with ⟨k, v⟩
        exact he
      rw [hR, foldl_upsertMax_lookup] at hlk
      have : combineMax (assocLookup e.1 ([] : List (Nat × ℚ))) (valuesFor pairs e.1)
          = (valuesFor pairs e.1).max? := combineMax_none _
      rw [this] at hlk
      rw [hlk]
      rfl
    have hlen : (R.length : ℚ) = (((pairs.map Prod.fst).dedup).length : ℚ) := by
      have : R.length = (R.map Prod.fst).length := (List.length_map _ _).symm
      rw [this, hperm.length_eq]
    have hsum : (R.map (fun e => e.2 / (bb.width * bb.height))).sum
        = (((pairs.map Prod.fst).dedup).map (fun k =>
            ((valuesFor pairs k).max?).getD 0 / (bb.width * bb.height))).sum := by
      have h1 : R.map (fun e => e.2 / (bb.width * bb.height))
          = R.map (fun e => ((valuesFor pairs e.1).max?).getD 0
              / (bb.width * bb.height)) := by
        apply List.map_congr_left
        intro e he
        rw [hval e he]
      rw [h1]
      have h2 : R.map (fun e => ((valuesFor pairs e.1).max?).getD 0
            / (bb.width * bb.height))
          = (R.map Prod.fst).map (fun k => ((valuesFor pairs k).max?).getD 0
              / (bb.width * bb.height)) := by
        rw [List.map_map]
        rfl
      rw [h2]
      exact (hperm.map _).sum_eq
    rw [hlen, hsum]
    rfl

/-- Witness for C10 at a concrete triangle NFP. -/
theorem pip_accesses_in_bounds_witness :
    [(⟨0, 0⟩ : Point), ⟨1, 0⟩, ⟨0, 1⟩] ≠ [] ∧
    ∀ ij ∈ pipAccessPairs ([(⟨0, 0⟩ : Point), ⟨1, 0⟩, ⟨0, 1⟩]).length,
      ij.1 < ([(⟨0, 0⟩ : Point), ⟨1, 0⟩, ⟨0, 1⟩]).length ∧
      ij.2 < ([(⟨0, 0⟩ : Point), ⟨1, 0⟩, ⟨0, 1⟩]).length :=
  pip_accesses_in_bounds [⟨0, 0⟩, ⟨1, 0⟩, ⟨0, 1⟩] (by decide)

end SvgNest
